import Mathlib

/-!
Verification of `checkov/terraform/runner.py` (terraform runner core).

The Python runner is embedded shallowly:

* Python `dict`s that the runner iterates in insertion order become
  association lists `List (String × _)`; mutation of a value in place
  becomes a keyed functional update (`aupd`), which is faithful because
  the runner only ever mutates values (appending to `skipped_checks`
  lists), never dict keys, while iterating.
* The unbounded recursion of `push_skipped_checks_down` (which Python
  performs on the call stack) is embedded with an explicit fuel
  parameter; running out of fuel is reported as a distinguished
  `PushResult.fuelOut` outcome, and uncaught Python exceptions
  (`KeyError`, `StopIteration`, `AttributeError`, `TypeError`,
  `ValueError`) are reported as `PushResult.exn` / `crashed` outcomes.
  A function that raises still leaves behind the mutations it performed
  before raising, so the embedding returns the partially updated state
  together with the outcome flag.
* External collaborator functions that live outside the inspected
  source file (path helpers from `parser_utils`, registry `scan`,
  secret redaction, tag extraction, breadcrumbs) are parameters of the
  embedding; the runner's own control flow never inspects their
  internals.
-/

set_option autoImplicit false

namespace Checkov

/-! ## Association-list primitives (Python `dict` in insertion order) -/

/-- First-match association lookup, Python `d.get(k)` / `d[k]`. -/
def alook {β : Type} : List (String × β) → String → Option β
  | [], _ => none
  | p :: t, k => if p.1 = k then some p.2 else alook t k

/-- Keyed value update, Python `d[k] = f(d[k])` on a dict whose keys are
unique.  Keys and their order are untouched. -/
def aupd {β : Type} : List (String × β) → String → (β → β) → List (String × β)
  | [], _, _ => []
  | p :: t, k, f => (if p.1 = k then (p.1, f p.2) else p) :: aupd t k f

/-- Insert-or-replace, Python `d[k] = v`: replaces the value in place if
the key is present, otherwise appends the pair (dict insertion order). -/
def ains {β : Type} : List (String × β) → String → β → List (String × β)
  | [], k, v => [(k, v)]
  | p :: t, k, v => if p.1 = k then (k, v) :: t else p :: ains t k v

/-! ## Data model: skip directives, context entries, the context index -/

/-- An inline suppression directive `{id, suppress_comment}` as stored in
a block's `skipped_checks` context list. -/
structure SkipDirective where
  id : String
  suppress_comment : Option String
deriving DecidableEq, Repr

/-- Per-block source metadata held by the context index
(`parser_registry.enrich_definitions_context` output): line range, raw
code lines and the block's skip directives. -/
structure ContextEntry where
  start_line : Option Nat
  end_line : Option Nat
  code_lines : List (Nat × String)
  skipped_checks : List SkipDirective
deriving DecidableEq, Repr

/-- The per-block-type layer of the context index.  The context parsers
key `module` blocks directly by name, and the remaining Terraform block
types first by type and then by name; this sum captures the two shapes
the runner's dispatch code distinguishes dynamically. -/
inductive BlockConfigs where
  | moduleConfigs (entries : List (String × ContextEntry))
  | resourceConfigs (entries : List (String × List (String × ContextEntry)))
deriving DecidableEq, Repr

/-- One file's context: block-type name to its configs
(`definition_context[file]`). -/
abbrev FileContext := List (String × BlockConfigs)

/-- The whole context index: file path to file context
(`self.context` / `definition_context`). -/
abbrev DefinitionContext := List (String × FileContext)

/-- The constant `CHECK_BLOCK_TYPES = frozenset(['resource', 'data', 'provider',
'module'])` from the runner module. -/
def CHECK_BLOCK_TYPES : List String := ["resource", "data", "provider", "module"]

/-! ## Data model: parsed definitions (`self.definitions`) -/

/-- One parsed `module` block as it appears in
`definitions[file]["module"]`: a dict from module local name to the
module's config, of which only the `RESOLVED_MODULE_ENTRY_NAME` entry is
consulted by the runner.  `none` models the key being absent. -/
abbrev ModuleDict := List (String × Option (List String))

/-- A parsed file's content, reduced to what the runner reads: the
`"module"` key (absent ↦ `none`) with its list of module dicts. -/
structure FileDef where
  module_blocks : Option (List ModuleDict)
deriving DecidableEq, Repr

/-- The map `self.definitions`: file path to parsed content. -/
abbrev Definitions := List (String × FileDef)

/-! ## Skip propagation: context update helpers -/

/-- Python `entry["skipped_checks"] += skipped_checks`. -/
def entryAppend (sk : List SkipDirective) (e : ContextEntry) : ContextEntry :=
  { e with skipped_checks := e.skipped_checks ++ sk }

/-- Append `sk` to the one module entry named `name`
(`module_config["skipped_checks"] += skipped_checks` for that name).
On a value of the other shape the update is the identity; the runner
path that performs it has already matched the `module` shape. -/
def cfgsAppendModuleName (name : String) (sk : List SkipDirective) :
    BlockConfigs → BlockConfigs
  | .moduleConfigs es => .moduleConfigs (aupd es name (entryAppend sk))
  | c => c

/-- Append `sk` to every module entry (inner loop of
`push_skipped_checks_down_old` for `block_type == "module"`). -/
def cfgsAppendAllModules (sk : List SkipDirective) : BlockConfigs → BlockConfigs
  | .moduleConfigs es => .moduleConfigs (es.map fun p => (p.1, entryAppend sk p.2))
  | c => c

/-- Append `sk` to every resource entry of every resource type (the
two nested `for … in block_configs.values()` loops of both propagation
functions). -/
def cfgsAppendAllResources (sk : List SkipDirective) : BlockConfigs → BlockConfigs
  | .resourceConfigs es =>
      .resourceConfigs (es.map fun p => (p.1, p.2.map fun q => (q.1, entryAppend sk q.2)))
  | c => c

/-- Append `sk` to the context entry of module `name` in file `f`. -/
def ctxAppendModule (ctx : DefinitionContext) (f name : String)
    (sk : List SkipDirective) : DefinitionContext :=
  aupd ctx f fun fc => aupd fc "module" (cfgsAppendModuleName name sk)

/-! ## Skip propagation: `push_skipped_checks_down` (nested strategy) -/

/-- Outcome of one (possibly recursive) propagation call. `ok` is normal
return, `exn` an uncaught Python exception raised mid-call, `fuelOut`
exhaustion of the explicit recursion fuel of the embedding. -/
inductive PushResult where
  | ok
  | exn
  | fuelOut
deriving DecidableEq, Repr

/-- The lookup `next(m for m in self.definitions.get(path).get(block_type) if
module_name in m).get(module_name).get(RESOLVED_MODULE_ENTRY_NAME)` from
`push_skipped_checks_down`.  `none` models the exceptions this chain can
raise (`AttributeError` when the file is not in `definitions`,
`TypeError` when it has no `"module"` key, `StopIteration` when no
module dict contains the name); `some o` carries the (possibly absent)
resolved-paths entry. -/
def findModuleResolved (defs : Definitions) (f name : String) :
    Option (Option (List String)) :=
  match alook defs f with
  | none => none
  | some fd =>
    match fd.module_blocks with
    | none => none
    | some dicts =>
      match dicts.find? (fun d => (alook d name).isSome) with
      | none => none
      | some d => alook d name

/-- Inner loop of `push_skipped_checks_down` over the module entries of
one file: append the directives to each module's context entry, then
recurse (`recurse` is the fuelled recursive call) into that module's
resolved paths. -/
def pushModulesGo
    (recurse : List String → DefinitionContext → DefinitionContext × PushResult)
    (defs : Definitions) (sk : List SkipDirective) (f : String) :
    List String → DefinitionContext → DefinitionContext × PushResult
  | [], ctx => (ctx, .ok)
  | name :: rest, ctx =>
    let ctx1 := ctxAppendModule ctx f name sk
    match findModuleResolved defs f name with
    | none => (ctx1, .exn)
    | some o =>
      match recurse (o.getD []) ctx1 with
      | (ctx2, .ok) => pushModulesGo recurse defs sk f rest ctx2
      | r => r

/-- Loop of `push_skipped_checks_down` over the `(block_type,
block_configs)` items of one resolved file's context.  Block types
outside `CHECK_BLOCK_TYPES` are skipped; the `module` branch feeds the
snapshot of module names to `pushModulesGo`; the resource branch appends
to every entry under the block type in the live context.  A shape
mismatch between the branch taken and the stored configs corresponds to
the `KeyError`/`TypeError` the Python loops would raise. -/
def pushBlocksGo
    (recurse : List String → DefinitionContext → DefinitionContext × PushResult)
    (defs : Definitions) (sk : List SkipDirective) (f : String) :
    List (String × BlockConfigs) → DefinitionContext → DefinitionContext × PushResult
  | [], ctx => (ctx, .ok)
  | (bt, cfgs) :: rest, ctx =>
    if bt ∈ CHECK_BLOCK_TYPES then
      if bt = "module" then
        match cfgs with
        | .moduleConfigs entries =>
          match pushModulesGo recurse defs sk f (entries.map Prod.fst) ctx with
          | (ctx1, .ok) => pushBlocksGo recurse defs sk f rest ctx1
          | r => r
        | .resourceConfigs _ => (ctx, .exn)
      else
        match cfgs with
        | .resourceConfigs _ =>
          pushBlocksGo recurse defs sk f rest
            (aupd ctx f fun fc => aupd fc bt (cfgsAppendAllResources sk))
        | .moduleConfigs _ => (ctx, .exn)
    else pushBlocksGo recurse defs sk f rest ctx

/-- Loop of `push_skipped_checks_down` over the resolved file paths
(`for ind, definition in enumerate(resolved_file_paths)`), reading each
file's context from the live index
(`definition_context.get(definition, {})`). -/
def pushFilesGo
    (recurse : List String → DefinitionContext → DefinitionContext × PushResult)
    (defs : Definitions) (sk : List SkipDirective) :
    List String → DefinitionContext → DefinitionContext × PushResult
  | [], ctx => (ctx, .ok)
  | f :: rest, ctx =>
    match pushBlocksGo recurse defs sk f ((alook ctx f).getD []) ctx with
    | (ctx1, .ok) => pushFilesGo recurse defs sk rest ctx1
    | r => r

/-- The method `Runner.push_skipped_checks_down`, fuelled.  The early return
`if not skipped_checks or not resolved_paths: return` is the emptiness
test; with positive fuel the body runs with the recursive call at one
less fuel. -/
def push_skipped_checks_down (defs : Definitions) :
    Nat → List SkipDirective → List String → DefinitionContext →
    DefinitionContext × PushResult
  | 0, sk, paths, ctx =>
    if sk.isEmpty || paths.isEmpty then (ctx, .ok) else (ctx, .fuelOut)
  | fuel + 1, sk, paths, ctx =>
    if sk.isEmpty || paths.isEmpty then (ctx, .ok)
    else pushFilesGo (push_skipped_checks_down defs fuel sk) defs sk paths ctx

/-! ## Skip propagation: `push_skipped_checks_down_old` (legacy strategy) -/

/-- Substring scan underlying `strContains`: does any suffix of the
haystack start with the needle. -/
def containsSub (needle : List Char) : List Char → Bool
  | [] => needle.isEmpty
  | c :: t => needle.isPrefixOf (c :: t) || containsSub needle t

/-- Containment of one string in another (Python `a in b` on strings). -/
def strContains (hay needle : String) : Bool :=
  containsSub needle.toList hay.toList

/-- Inner loops of `push_skipped_checks_down_old` for one matching
definition: every check-block-type item gets the directives appended to
all of its entries.  The boolean is false when the Python loop would
raise on a shape mismatch. -/
def pushOldBlocks (sk : List SkipDirective) (f : String) :
    List (String × BlockConfigs) → DefinitionContext → DefinitionContext × Bool
  | [], ctx => (ctx, true)
  | (bt, cfgs) :: rest, ctx =>
    if bt ∈ CHECK_BLOCK_TYPES then
      if bt = "module" then
        match cfgs with
        | .moduleConfigs _ =>
          pushOldBlocks sk f rest (aupd ctx f fun fc => aupd fc bt (cfgsAppendAllModules sk))
        | .resourceConfigs _ => (ctx, false)
      else
        match cfgs with
        | .resourceConfigs _ =>
          pushOldBlocks sk f rest (aupd ctx f fun fc => aupd fc bt (cfgsAppendAllResources sk))
        | .moduleConfigs _ => (ctx, false)
    else pushOldBlocks sk f rest ctx

/-- Outer loop of `push_skipped_checks_down_old` over the definition
keys (snapshot of the index's keys; appends never change them).
`stripRef` is `strip_terraform_module_referrer`'s referrer component, an
external helper of `parser_utils`. -/
def pushOldFiles (stripRef : String → Option String) (module_path : String)
    (sk : List SkipDirective) :
    List String → DefinitionContext → DefinitionContext × Bool
  | [], ctx => (ctx, true)
  | d :: rest, ctx =>
    match stripRef d with
    | none => pushOldFiles stripRef module_path sk rest ctx
    | some mref =>
      if strContains mref module_path then
        match pushOldBlocks sk d ((alook ctx d).getD []) ctx with
        | (ctx1, true) => pushOldFiles stripRef module_path sk rest ctx1
        | r => r
      else pushOldFiles stripRef module_path sk rest ctx

/-- The method `Runner.push_skipped_checks_down_old`.  `skipped` is the possibly
`None` skip list (`if skipped_checks is None: return`, then
`if len(skipped_checks) == 0: return`). -/
def push_skipped_checks_down_old (stripRef : String → Option String)
    (ctx : DefinitionContext) (module_path : String)
    (skipped : Option (List SkipDirective)) : DefinitionContext × Bool :=
  match skipped with
  | none => (ctx, true)
  | some sk =>
    if sk.isEmpty then (ctx, true)
    else pushOldFiles stripRef module_path sk (ctx.map Prod.fst) ctx

/-! ## Entry lookup accessors -/

/-- Module-name lookup inside one block-configs value. -/
def cfgsModuleLookup (name : String) : BlockConfigs → Option ContextEntry
  | .moduleConfigs es => alook es name
  | _ => none

/-- Type-then-name lookup inside one block-configs value. -/
def cfgsResourceLookup (rt rn : String) : BlockConfigs → Option ContextEntry
  | .resourceConfigs es => (alook es rt).bind fun ns => alook ns rn
  | _ => none

/-- The context entry of module `name` in file `f`
(`definition_context[f]["module"][name]`). -/
def getModuleEntry (ctx : DefinitionContext) (f name : String) :
    Option ContextEntry :=
  (alook ctx f).bind fun fc => (alook fc "module").bind (cfgsModuleLookup name)

/-- The context entry of the block `bt.rt.rn` in file `f`
(`definition_context[f][bt][rt][rn]`). -/
def getResourceEntry (ctx : DefinitionContext) (f bt rt rn : String) :
    Option ContextEntry :=
  (alook ctx f).bind fun fc => (alook fc bt).bind (cfgsResourceLookup rt rn)

/-! ## The append-only extension order on contexts -/

/-- Pointwise lifting of a relation along two association lists with
identical keys in identical order. -/
inductive PW {α : Type} (R : α → α → Prop) :
    List (String × α) → List (String × α) → Prop
  | nil : PW R [] []
  | cons {p q : String × α} {t u : List (String × α)} :
      p.1 = q.1 → R p.2 q.2 → PW R t u → PW R (p :: t) (q :: u)

/-- Entry `e'` is `e` with zero or more skip directives appended at the end of
`skipped_checks` and every other field unchanged. -/
def EntryExt (e e' : ContextEntry) : Prop :=
  ∃ t, e' = { e with skipped_checks := e.skipped_checks ++ t }

/-- Pointwise `EntryExt` on block configs of the same shape. -/
inductive CfgExt : BlockConfigs → BlockConfigs → Prop
  | modules {a b : List (String × ContextEntry)} :
      PW EntryExt a b → CfgExt (.moduleConfigs a) (.moduleConfigs b)
  | resources {a b : List (String × List (String × ContextEntry))} :
      PW (PW EntryExt) a b → CfgExt (.resourceConfigs a) (.resourceConfigs b)

/-- Pointwise `CfgExt` on file contexts. -/
abbrev FileExt : FileContext → FileContext → Prop := PW CfgExt

/-- The append-only extension order on whole context indexes: same
files, same block structure, every `skipped_checks` list extended only
by appending at the end. -/
abbrev CtxExt : DefinitionContext → DefinitionContext → Prop := PW FileExt

theorem entryExt_refl (e : ContextEntry) : EntryExt e e :=
  ⟨[], by cases e; simp⟩

theorem entryExt_trans {a b c : ContextEntry}
    (h1 : EntryExt a b) (h2 : EntryExt b c) : EntryExt a c := by
  obtain ⟨t1, rfl⟩ := h1
  obtain ⟨t2, rfl⟩ := h2
  exact ⟨t1 ++ t2, by simp⟩

theorem pw_refl {α : Type} {R : α → α → Prop} (h : ∀ a, R a a) :
    ∀ l, PW R l l
  | [] => .nil
  | _ :: t => .cons rfl (h _) (pw_refl h t)

theorem pw_trans {α : Type} {R : α → α → Prop} {l m n : List (String × α)}
    (hlm : PW R l m) (hmn : PW R m n)
    (h : ∀ a b c, R a b → R b c → R a c) : PW R l n := by
  induction hlm generalizing n with
  | nil => exact hmn
  | cons hk hr _ ih =>
    cases hmn with
    | cons gk gr gt => exact .cons (hk.trans gk) (h _ _ _ hr gr) (ih gt)

theorem pw_keys {α : Type} {R : α → α → Prop} {l m : List (String × α)}
    (h : PW R l m) : l.map Prod.fst = m.map Prod.fst := by
  induction h with
  | nil => rfl
  | cons hk _ _ ih => simp [hk, ih]

theorem pw_map_right {α : Type} {R : α → α → Prop} (g : α → α)
    (h : ∀ a, R a (g a)) :
    ∀ l, PW R l (l.map fun p => (p.1, g p.2))
  | [] => .nil
  | _ :: t => .cons rfl (h _) (pw_map_right g h t)

theorem pw_aupd_right {α : Type} {R : α → α → Prop} (h0 : ∀ a, R a a)
    (f : α → α) (hf : ∀ a, R a (f a)) (k : String) :
    ∀ l, PW R l (aupd l k f)
  | [] => .nil
  | p :: t => by
    simp only [aupd]
    by_cases hk : p.1 = k
    · rw [if_pos hk]
      exact .cons rfl (hf _) (pw_aupd_right h0 f hf k t)
    · rw [if_neg hk]
      exact .cons rfl (h0 _) (pw_aupd_right h0 f hf k t)

theorem pw_alook_rel {α : Type} {R : α → α → Prop} {l m : List (String × α)}
    (h : PW R l m) (k : String) :
    (alook l k = none ∧ alook m k = none) ∨
      ∃ a b, alook l k = some a ∧ alook m k = some b ∧ R a b := by
  induction h with
  | nil => exact Or.inl ⟨rfl, rfl⟩
  | @cons p q t u hk hr _ ih =>
    by_cases hpk : p.1 = k
    · exact Or.inr ⟨p.2, q.2, by simp [alook, hpk], by simp [alook, hk ▸ hpk], hr⟩
    · have hqk : ¬ q.1 = k := hk ▸ hpk
      simpa [alook, hpk, hqk] using ih

theorem alook_aupd_eq {α : Type} (f : α → α) (k : String) :
    ∀ l, alook (aupd l k f) k = (alook l k).map f
  | [] => rfl
  | p :: t => by
    by_cases hk : p.1 = k <;>
      simp [aupd, alook, hk, alook_aupd_eq f k t]

theorem alook_aupd_ne {α : Type} (f : α → α) {k k' : String} (h : k' ≠ k) :
    ∀ l, alook (aupd l k f) k' = alook l k'
  | [] => rfl
  | p :: t => by
    by_cases hk : p.1 = k
    · have hpk' : ¬ p.1 = k' := fun hc => h ((hc ▸ hk : k' = k))
      simp [aupd, alook, hk, hpk', Ne.symm h, alook_aupd_ne f h t]
    · by_cases hk' : p.1 = k' <;>
        simp [aupd, alook, hk, hk', h, alook_aupd_ne f h t]

theorem alook_map {α : Type} (g : α → α) (k : String) :
    ∀ l, alook (l.map fun p => (p.1, g p.2)) k = (alook l k).map g
  | [] => rfl
  | p :: t => by by_cases hk : p.1 = k <;> simp [alook, hk, alook_map g k t]

theorem alook_mem {α : Type} {k : String} {a : α} :
    ∀ {l : List (String × α)}, alook l k = some a → (k, a) ∈ l := by
  intro l
  induction l with
  | nil => intro h; exact absurd h (by simp [alook])
  | cons p t ih =>
    intro h
    by_cases hk : p.1 = k
    · simp only [alook, hk, if_pos] at h
      cases h
      exact hk ▸ List.mem_cons_self p t
    · simp only [alook, hk, if_neg, not_false_iff] at h
      exact List.mem_cons_of_mem p (ih h)

theorem cfgExt_refl : ∀ c, CfgExt c c
  | .moduleConfigs _ => .modules (pw_refl entryExt_refl _)
  | .resourceConfigs _ => .resources (pw_refl (fun _ => pw_refl entryExt_refl _) _)

theorem cfgExt_trans {a b c : BlockConfigs} (h1 : CfgExt a b)
    (h2 : CfgExt b c) : CfgExt a c := by
  cases h1 with
  | modules p1 =>
    cases h2 with
    | modules p2 => exact .modules (pw_trans p1 p2 (fun _ _ _ hx hy => entryExt_trans hx hy))
  | resources p1 =>
    cases h2 with
    | resources p2 =>
      exact .resources
        (pw_trans p1 p2 (fun _ _ _ hx hy => pw_trans hx hy (fun _ _ _ ha hb => entryExt_trans ha hb)))

theorem fileExt_refl (fc : FileContext) : FileExt fc fc := pw_refl cfgExt_refl fc

theorem fileExt_trans {a b c : FileContext} (h1 : FileExt a b)
    (h2 : FileExt b c) : FileExt a c :=
  pw_trans h1 h2 (fun _ _ _ hx hy => cfgExt_trans hx hy)

theorem ctxExt_refl (ctx : DefinitionContext) : CtxExt ctx ctx :=
  pw_refl fileExt_refl ctx

theorem ctxExt_trans {a b c : DefinitionContext} (h1 : CtxExt a b)
    (h2 : CtxExt b c) : CtxExt a c :=
  pw_trans h1 h2 (fun _ _ _ hx hy => fileExt_trans hx hy)

theorem entryExt_append (sk : List SkipDirective) (e : ContextEntry) :
    EntryExt e (entryAppend sk e) := ⟨sk, rfl⟩

theorem cfgExt_appendModuleName (name : String) (sk : List SkipDirective) :
    ∀ c, CfgExt c (cfgsAppendModuleName name sk c)
  | .moduleConfigs _ =>
    .modules (pw_aupd_right entryExt_refl _ (entryExt_append sk) name _)
  | .resourceConfigs _ => cfgExt_refl _

theorem cfgExt_appendAllModules (sk : List SkipDirective) :
    ∀ c, CfgExt c (cfgsAppendAllModules sk c)
  | .moduleConfigs _ => .modules (pw_map_right _ (entryExt_append sk) _)
  | .resourceConfigs _ => cfgExt_refl _

theorem cfgExt_appendAllResources (sk : List SkipDirective) :
    ∀ c, CfgExt c (cfgsAppendAllResources sk c)
  | .moduleConfigs _ => cfgExt_refl _
  | .resourceConfigs _ =>
    .resources (pw_map_right _ (fun inner => pw_map_right _ (entryExt_append sk) inner) _)

theorem ctxExt_aupd (f : String) (g : FileContext → FileContext)
    (hg : ∀ fc, FileExt fc (g fc)) (ctx : DefinitionContext) :
    CtxExt ctx (aupd ctx f g) :=
  pw_aupd_right fileExt_refl g hg f ctx

theorem fileExt_aupd (bt : String) (g : BlockConfigs → BlockConfigs)
    (hg : ∀ c, CfgExt c (g c)) (fc : FileContext) :
    FileExt fc (aupd fc bt g) :=
  pw_aupd_right cfgExt_refl g hg bt fc

theorem ctxExt_appendModule (ctx : DefinitionContext) (f name : String)
    (sk : List SkipDirective) : CtxExt ctx (ctxAppendModule ctx f name sk) :=
  ctxExt_aupd f _ (fun fc => fileExt_aupd "module" _ (cfgExt_appendModuleName name sk) fc) ctx

theorem ctxExt_appendAllResources (ctx : DefinitionContext) (f bt : String)
    (sk : List SkipDirective) :
    CtxExt ctx (aupd ctx f fun fc => aupd fc bt (cfgsAppendAllResources sk)) :=
  ctxExt_aupd f _ (fun fc => fileExt_aupd bt _ (cfgExt_appendAllResources sk) fc) ctx

theorem ctxExt_appendAllModules (ctx : DefinitionContext) (f bt : String)
    (sk : List SkipDirective) :
    CtxExt ctx (aupd ctx f fun fc => aupd fc bt (cfgsAppendAllModules sk)) :=
  ctxExt_aupd f _ (fun fc => fileExt_aupd bt _ (cfgExt_appendAllModules sk) fc) ctx

/-! ## Append-only behaviour of the propagation functions -/

theorem pushModulesGo_ext
    {recurse : List String → DefinitionContext → DefinitionContext × PushResult}
    (hrec : ∀ ps c, CtxExt c (recurse ps c).1)
    (defs : Definitions) (sk : List SkipDirective) (f : String) :
    ∀ (names : List String) (ctx : DefinitionContext),
      CtxExt ctx (pushModulesGo recurse defs sk f names ctx).1 := by
  intro names
  induction names with
  | nil => intro ctx; exact ctxExt_refl ctx
  | cons name rest ih =>
    intro ctx
    have h1 : CtxExt ctx (ctxAppendModule ctx f name sk) :=
      ctxExt_appendModule ctx f name sk
    unfold pushModulesGo
    cases hfr : findModuleResolved defs f name with
    | none => simpa using h1
    | some o =>
      simp only
      rcases hr : recurse (o.getD []) (ctxAppendModule ctx f name sk) with ⟨ctx2, r2⟩
      have h2 : CtxExt (ctxAppendModule ctx f name sk) ctx2 := by
        have := hrec (o.getD []) (ctxAppendModule ctx f name sk)
        rw [hr] at this
        exact this
      cases r2 with
      | ok => exact ctxExt_trans h1 (ctxExt_trans h2 (ih ctx2))
      | exn => exact ctxExt_trans h1 h2
      | fuelOut => exact ctxExt_trans h1 h2

theorem pushBlocksGo_ext
    {recurse : List String → DefinitionContext → DefinitionContext × PushResult}
    (hrec : ∀ ps c, CtxExt c (recurse ps c).1)
    (defs : Definitions) (sk : List SkipDirective) (f : String) :
    ∀ (items : List (String × BlockConfigs)) (ctx : DefinitionContext),
      CtxExt ctx (pushBlocksGo recurse defs sk f items ctx).1 := by
  intro items
  induction items with
  | nil => intro ctx; exact ctxExt_refl ctx
  | cons item rest ih =>
    intro ctx
    rcases item with ⟨bt, cfgs⟩
    unfold pushBlocksGo
    by_cases hbt : bt ∈ CHECK_BLOCK_TYPES
    · simp only [hbt, if_true]
      by_cases hmod : bt = "module"
      · simp only [hmod, if_true]
        cases cfgs with
        | moduleConfigs entries =>
          simp only
          rcases hm : pushModulesGo recurse defs sk f (entries.map Prod.fst) ctx with ⟨ctx1, r1⟩
          have h1 : CtxExt ctx ctx1 := by
            have := pushModulesGo_ext hrec defs sk f (entries.map Prod.fst) ctx
            rw [hm] at this
            exact this
          cases r1 with
          | ok => exact ctxExt_trans h1 (ih ctx1)
          | exn => exact h1
          | fuelOut => exact h1
        | resourceConfigs _ => exact ctxExt_refl ctx
      · simp only [hmod, if_false]
        cases cfgs with
        | moduleConfigs _ => exact ctxExt_refl ctx
        | resourceConfigs _ =>
          exact ctxExt_trans (ctxExt_appendAllResources ctx f bt sk) (ih _)
    · simp only [hbt, if_false]
      exact ih ctx

theorem pushFilesGo_ext
    {recurse : List String → DefinitionContext → DefinitionContext × PushResult}
    (hrec : ∀ ps c, CtxExt c (recurse ps c).1)
    (defs : Definitions) (sk : List SkipDirective) :
    ∀ (files : List String) (ctx : DefinitionContext),
      CtxExt ctx (pushFilesGo recurse defs sk files ctx).1 := by
  intro files
  induction files with
  | nil => intro ctx; exact ctxExt_refl ctx
  | cons f rest ih =>
    intro ctx
    unfold pushFilesGo
    rcases hb : pushBlocksGo recurse defs sk f ((alook ctx f).getD []) ctx with ⟨ctx1, r1⟩
    have h1 : CtxExt ctx ctx1 := by
      have := pushBlocksGo_ext hrec defs sk f ((alook ctx f).getD []) ctx
      rw [hb] at this
      exact this
    cases r1 with
    | ok => exact ctxExt_trans h1 (ih ctx1)
    | exn => exact h1
    | fuelOut => exact h1

theorem push_skipped_checks_down_ext (defs : Definitions) :
    ∀ (fuel : Nat) (sk : List SkipDirective) (paths : List String)
      (ctx : DefinitionContext),
      CtxExt ctx (push_skipped_checks_down defs fuel sk paths ctx).1 := by
  intro fuel
  induction fuel with
  | zero =>
    intro sk paths ctx
    unfold push_skipped_checks_down
    by_cases h : sk.isEmpty || paths.isEmpty <;> simp [h, ctxExt_refl]
  | succ fuel ih =>
    intro sk paths ctx
    unfold push_skipped_checks_down
    by_cases h : sk.isEmpty || paths.isEmpty
    · simp [h, ctxExt_refl]
    · simp only [h, if_false]
      exact pushFilesGo_ext (fun ps c => ih sk ps c) defs sk paths ctx

theorem pushOldBlocks_ext (sk : List SkipDirective) (f : String) :
    ∀ (items : List (String × BlockConfigs)) (ctx : DefinitionContext),
      CtxExt ctx (pushOldBlocks sk f items ctx).1 := by
  intro items
  induction items with
  | nil => intro ctx; exact ctxExt_refl ctx
  | cons item rest ih =>
    intro ctx
    rcases item with ⟨bt, cfgs⟩
    unfold pushOldBlocks
    by_cases hbt : bt ∈ CHECK_BLOCK_TYPES
    · simp only [hbt, if_true]
      by_cases hmod : bt = "module"
      · simp only [hmod, if_true]
        cases cfgs with
        | moduleConfigs _ =>
          exact ctxExt_trans (hmod ▸ ctxExt_appendAllModules ctx f bt sk) (ih _)
        | resourceConfigs _ => exact ctxExt_refl ctx
      · simp only [hmod, if_false]
        cases cfgs with
        | moduleConfigs _ => exact ctxExt_refl ctx
        | resourceConfigs _ =>
          exact ctxExt_trans (ctxExt_appendAllResources ctx f bt sk) (ih _)
    · simp only [hbt, if_false]
      exact ih ctx

theorem pushOldFiles_ext (stripRef : String → Option String) (mp : String)
    (sk : List SkipDirective) :
    ∀ (files : List String) (ctx : DefinitionContext),
      CtxExt ctx (pushOldFiles stripRef mp sk files ctx).1 := by
  intro files
  induction files with
  | nil => intro ctx; exact ctxExt_refl ctx
  | cons d rest ih =>
    intro ctx
    unfold pushOldFiles
    cases stripRef d with
    | none => exact ih ctx
    | some mref =>
      simp only
      by_cases hc : strContains mref mp
      · simp only [hc, if_true]
        rcases hb : pushOldBlocks sk d ((alook ctx d).getD []) ctx with ⟨ctx1, r1⟩
        have h1 : CtxExt ctx ctx1 := by
          have := pushOldBlocks_ext sk d ((alook ctx d).getD []) ctx
          rw [hb] at this
          exact this
        cases r1 with
        | true => exact ctxExt_trans h1 (ih ctx1)
        | false => exact h1
      · simp only [hc, if_false]
        exact ih ctx

theorem push_skipped_checks_down_old_ext (stripRef : String → Option String)
    (ctx : DefinitionContext) (mp : String)
    (skipped : Option (List SkipDirective)) :
    CtxExt ctx (push_skipped_checks_down_old stripRef ctx mp skipped).1 := by
  unfold push_skipped_checks_down_old
  cases skipped with
  | none => exact ctxExt_refl ctx
  | some sk =>
    by_cases h : sk.isEmpty
    · simp [h, ctxExt_refl]
    · simp only [h, if_false]
      exact pushOldFiles_ext stripRef mp sk (ctx.map Prod.fst) ctx

/-- C2: skip propagation is append-only and order-preserving.  Every
invocation of `push_skipped_checks_down` (at any fuel, whatever its
outcome) and every invocation of `push_skipped_checks_down_old` leaves
the context index `CtxExt`-above its input: file keys and block
structure are unchanged and each block's `skipped_checks` list after the
call is exactly the list before the call with zero or more new
directives appended after it (`EntryExt`), so existing entries survive
in their original relative order and nothing is ever removed; since
every mutation of the index during a run factors through these two
functions, a directive once propagated stays for the rest of the run. -/
theorem C2_push_skipped_checks_append_only :
    ∀ (defs : Definitions) (fuel : Nat) (sk : List SkipDirective)
      (paths : List String) (ctx : DefinitionContext)
      (stripRef : String → Option String) (mp : String)
      (skOld : Option (List SkipDirective)) (ctxOld : DefinitionContext),
      CtxExt ctx (push_skipped_checks_down defs fuel sk paths ctx).1 ∧
      CtxExt ctxOld (push_skipped_checks_down_old stripRef ctxOld mp skOld).1 :=
  fun defs fuel sk paths ctx stripRef mp skOld ctxOld =>
    ⟨push_skipped_checks_down_ext defs fuel sk paths ctx,
     push_skipped_checks_down_old_ext stripRef ctxOld mp skOld⟩

/-! ## Receiving a directive block: definitions and transfer lemmas -/

/-- The directive list `sk` occurs contiguously inside the entry's
`skipped_checks` (the shape one append of `sk` leaves behind). -/
def entryHasBlock (sk : List SkipDirective) (e : ContextEntry) : Prop :=
  ∃ u v, e.skipped_checks = u ++ sk ++ v

theorem entryHasBlock_append (sk : List SkipDirective) (e : ContextEntry) :
    entryHasBlock sk (entryAppend sk e) :=
  ⟨e.skipped_checks, [], by simp [entryAppend]⟩

theorem entryHasBlock_mono {sk : List SkipDirective} {e e' : ContextEntry}
    (h : EntryExt e e') (hb : entryHasBlock sk e) : entryHasBlock sk e' := by
  obtain ⟨t, rfl⟩ := h
  obtain ⟨u, v, hv⟩ := hb
  exact ⟨u, v ++ t, by simp [hv]⟩

theorem ctxExt_getModuleEntry {c c' : DefinitionContext} (h : CtxExt c c')
    {f name : String} {e : ContextEntry}
    (he : getModuleEntry c f name = some e) :
    ∃ e', getModuleEntry c' f name = some e' ∧ EntryExt e e' := by
  unfold getModuleEntry at he ⊢
  rcases pw_alook_rel h f with ⟨h1, _⟩ | ⟨fc, fc', h1, h1', hfc⟩
  · simp [h1] at he
  · simp only [h1, Option.some_bind] at he
    simp only [h1', Option.some_bind]
    rcases pw_alook_rel hfc "module" with ⟨h2, _⟩ | ⟨cfgs, cfgs', h2, h2', hcf⟩
    · simp [h2] at he
    · simp only [h2, Option.some_bind] at he
      simp only [h2', Option.some_bind]
      cases hcf with
      | modules pw =>
        simp only [cfgsModuleLookup] at he ⊢
        rcases pw_alook_rel pw name with ⟨h3, _⟩ | ⟨a, b, h3, h3', hab⟩
        · simp [h3] at he
        · rw [h3] at he
          cases he
          exact ⟨b, h3', hab⟩
      | resources _ => simp [cfgsModuleLookup] at he

theorem ctxExt_getResourceEntry {c c' : DefinitionContext} (h : CtxExt c c')
    {f bt rt rn : String} {e : ContextEntry}
    (he : getResourceEntry c f bt rt rn = some e) :
    ∃ e', getResourceEntry c' f bt rt rn = some e' ∧ EntryExt e e' := by
  unfold getResourceEntry at he ⊢
  rcases pw_alook_rel h f with ⟨h1, _⟩ | ⟨fc, fc', h1, h1', hfc⟩
  · simp [h1] at he
  · simp only [h1, Option.some_bind] at he
    simp only [h1', Option.some_bind]
    rcases pw_alook_rel hfc bt with ⟨h2, _⟩ | ⟨cfgs, cfgs', h2, h2', hcf⟩
    · simp [h2] at he
    · simp only [h2, Option.some_bind] at he
      simp only [h2', Option.some_bind]
      cases hcf with
      | resources pw =>
        simp only [cfgsResourceLookup] at he ⊢
        rcases pw_alook_rel pw rt with ⟨h3, _⟩ | ⟨ns, ns', h3, h3', hns⟩
        · simp [h3] at he
        · simp only [h3, Option.some_bind] at he
          simp only [h3', Option.some_bind]
          rcases pw_alook_rel hns rn with ⟨h4, _⟩ | ⟨a, b, h4, h4', hab⟩
          · simp [h4] at he
          · rw [h4] at he
            cases he
            exact ⟨b, h4', hab⟩
      | modules _ => simp [cfgsResourceLookup] at he

theorem ctxExt_resource_block {c c' : DefinitionContext} (h : CtxExt c c')
    {f bt rt rn : String} {sk : List SkipDirective} {e : ContextEntry}
    (he : getResourceEntry c f bt rt rn = some e) (hb : entryHasBlock sk e) :
    ∃ e', getResourceEntry c' f bt rt rn = some e' ∧ entryHasBlock sk e' := by
  obtain ⟨e', he', hx⟩ := ctxExt_getResourceEntry h he
  exact ⟨e', he', entryHasBlock_mono hx hb⟩

theorem ctxExt_module_block {c c' : DefinitionContext} (h : CtxExt c c')
    {f name : String} {sk : List SkipDirective} {e : ContextEntry}
    (he : getModuleEntry c f name = some e) (hb : entryHasBlock sk e) :
    ∃ e', getModuleEntry c' f name = some e' ∧ entryHasBlock sk e' := by
  obtain ⟨e', he', hx⟩ := ctxExt_getModuleEntry h he
  exact ⟨e', he', entryHasBlock_mono hx hb⟩

/-! ## Effect of the append operations on entry lookups -/

theorem getModuleEntry_appendModule {ctx : DefinitionContext}
    {f name : String} (sk : List SkipDirective) {e : ContextEntry}
    (h : getModuleEntry ctx f name = some e) :
    getModuleEntry (ctxAppendModule ctx f name sk) f name
      = some (entryAppend sk e) := by
  unfold getModuleEntry at h ⊢
  unfold ctxAppendModule
  rw [alook_aupd_eq]
  cases h1 : alook ctx f with
  | none => simp [h1] at h
  | some fc =>
    simp only [h1, Option.some_bind] at h
    simp only [Option.map_some', Option.some_bind]
    rw [alook_aupd_eq]
    cases h2 : alook fc "module" with
    | none => simp [h2] at h
    | some cfgs =>
      simp only [h2, Option.some_bind] at h
      cases cfgs with
      | moduleConfigs es =>
        simp only [cfgsModuleLookup] at h
        simp only [Option.map_some', cfgsAppendModuleName, Option.some_bind,
          cfgsModuleLookup]
        rw [alook_aupd_eq, h]
        rfl
      | resourceConfigs _ => simp [cfgsModuleLookup] at h

theorem getResourceEntry_appendAllResources {ctx : DefinitionContext}
    {f bt rt rn : String} (sk : List SkipDirective) {e : ContextEntry}
    (h : getResourceEntry ctx f bt rt rn = some e) :
    getResourceEntry (aupd ctx f fun fc => aupd fc bt (cfgsAppendAllResources sk))
        f bt rt rn = some (entryAppend sk e) := by
  unfold getResourceEntry at h ⊢
  rw [alook_aupd_eq]
  cases h1 : alook ctx f with
  | none => simp [h1] at h
  | some fc =>
    simp only [h1, Option.some_bind] at h
    simp only [Option.map_some', Option.some_bind]
    rw [alook_aupd_eq]
    cases h2 : alook fc bt with
    | none => simp [h2] at h
    | some cfgs =>
      simp only [h2, Option.some_bind] at h
      cases cfgs with
      | resourceConfigs es =>
        simp only [cfgsResourceLookup] at h
        simp only [Option.map_some', cfgsAppendAllResources, Option.some_bind,
          cfgsResourceLookup]
        rw [alook_map]
        cases h3 : alook es rt with
        | none => simp [h3] at h
        | some ns =>
          simp only [h3, Option.some_bind] at h
          simp only [Option.map_some', Option.some_bind]
          rw [alook_map, h]
          rfl
      | moduleConfigs _ => simp [cfgsResourceLookup] at h

/-! ## Directive delivery along a successful propagation run -/

theorem pushModulesGo_append
    {recurse : List String → DefinitionContext → DefinitionContext × PushResult}
    (hrec : ∀ ps c, CtxExt c (recurse ps c).1)
    (defs : Definitions) (sk : List SkipDirective) (f : String) :
    ∀ (names : List String) (ctx ctx' : DefinitionContext) {name : String}
      {e : ContextEntry},
      pushModulesGo recurse defs sk f names ctx = (ctx', .ok) →
      name ∈ names →
      getModuleEntry ctx f name = some e →
      ∃ e', getModuleEntry ctx' f name = some e' ∧ entryHasBlock sk e' := by
  intro names
  induction names with
  | nil =>
    intro ctx ctx' name e _ hmem _
    exact absurd hmem (List.not_mem_nil name)
  | cons n0 rest ih =>
    intro ctx ctx' name e hrun hmem he
    simp only [pushModulesGo] at hrun
    cases hfr : findModuleResolved defs f n0 with
    | none => simp [hfr] at hrun
    | some o =>
      simp only [hfr] at hrun
      rcases hr : recurse (o.getD []) (ctxAppendModule ctx f n0 sk) with ⟨ctx2, r2⟩
      cases r2 with
      | ok =>
        simp only [hr] at hrun
        have hext2 : CtxExt (ctxAppendModule ctx f n0 sk) ctx2 := by
          have h0 := hrec (o.getD []) (ctxAppendModule ctx f n0 sk)
          rw [hr] at h0
          exact h0
        rcases List.mem_cons.mp hmem with rfl | hmem'
        · have h1 : getModuleEntry (ctxAppendModule ctx f name sk) f name
              = some (entryAppend sk e) := getModuleEntry_appendModule sk he
          obtain ⟨e2, he2, hb2⟩ :=
            ctxExt_module_block hext2 h1 (entryHasBlock_append sk e)
          have hext3 : CtxExt ctx2 ctx' := by
            have h0 := pushModulesGo_ext hrec defs sk f rest ctx2
            rw [hrun] at h0
            exact h0
          exact ctxExt_module_block hext3 he2 hb2
        · have hext1 : CtxExt ctx (ctxAppendModule ctx f n0 sk) :=
            ctxExt_appendModule ctx f n0 sk
          obtain ⟨e1, he1, _⟩ :=
            ctxExt_getModuleEntry (ctxExt_trans hext1 hext2) he
          exact ih ctx2 ctx' hrun hmem' he1
      | exn => simp [hr] at hrun
      | fuelOut => simp [hr] at hrun

theorem getResourceEntry_mem {ctx : DefinitionContext} {f bt rt rn : String}
    {e : ContextEntry} (h : getResourceEntry ctx f bt rt rn = some e) :
    ∃ fc es, alook ctx f = some fc ∧ (bt, BlockConfigs.resourceConfigs es) ∈ fc := by
  unfold getResourceEntry at h
  cases h1 : alook ctx f with
  | none => simp [h1] at h
  | some fc =>
    simp only [h1, Option.some_bind] at h
    cases h2 : alook fc bt with
    | none => simp [h2] at h
    | some cfgs =>
      simp only [h2, Option.some_bind] at h
      cases cfgs with
      | moduleConfigs _ => simp [cfgsResourceLookup] at h
      | resourceConfigs es => exact ⟨fc, es, rfl, alook_mem h2⟩

theorem getModuleEntry_mem {ctx : DefinitionContext} {f name : String}
    {e : ContextEntry} (h : getModuleEntry ctx f name = some e) :
    ∃ fc es, alook ctx f = some fc ∧
      ("module", BlockConfigs.moduleConfigs es) ∈ fc ∧ name ∈ es.map Prod.fst := by
  unfold getModuleEntry at h
  cases h1 : alook ctx f with
  | none => simp [h1] at h
  | some fc =>
    simp only [h1, Option.some_bind] at h
    cases h2 : alook fc "module" with
    | none => simp [h2] at h
    | some cfgs =>
      simp only [h2, Option.some_bind] at h
      cases cfgs with
      | resourceConfigs _ => simp [cfgsModuleLookup] at h
      | moduleConfigs es =>
        simp only [cfgsModuleLookup] at h
        exact ⟨fc, es, rfl, alook_mem h2,
          List.mem_map_of_mem Prod.fst (alook_mem h)⟩

theorem pushBlocksGo_resource_append
    {recurse : List String → DefinitionContext → DefinitionContext × PushResult}
    (hrec : ∀ ps c, CtxExt c (recurse ps c).1)
    (defs : Definitions) (sk : List SkipDirective) (f : String) :
    ∀ (items : List (String × BlockConfigs)) (ctx ctx' : DefinitionContext)
      {bt : String} {cfgs : BlockConfigs} {rt rn : String} {e : ContextEntry},
      pushBlocksGo recurse defs sk f items ctx = (ctx', .ok) →
      (bt, cfgs) ∈ items → bt ∈ CHECK_BLOCK_TYPES → bt ≠ "module" →
      getResourceEntry ctx f bt rt rn = some e →
      ∃ e', getResourceEntry ctx' f bt rt rn = some e' ∧ entryHasBlock sk e' := by
  intro items
  induction items with
  | nil =>
    intro ctx ctx' bt cfgs rt rn e _ hmem _ _ _
    exact absurd hmem (List.not_mem_nil _)
  | cons item rest ih =>
    intro ctx ctx' bt cfgs rt rn e hrun hmem hbt hnm he
    rcases item with ⟨bt0, cfgs0⟩
    simp only [pushBlocksGo] at hrun
    by_cases hbt0 : bt0 ∈ CHECK_BLOCK_TYPES
    · rw [if_pos hbt0] at hrun
      by_cases hmod0 : bt0 = "module"
      · rw [if_pos hmod0] at hrun
        cases cfgs0 with
        | moduleConfigs entries =>
          dsimp only at hrun
          rcases hm : pushModulesGo recurse defs sk f (entries.map Prod.fst) ctx
            with ⟨ctx1, r1⟩
          cases r1 with
          | ok =>
            simp only [hm] at hrun
            have hext1 : CtxExt ctx ctx1 := by
              have h0 := pushModulesGo_ext hrec defs sk f (entries.map Prod.fst) ctx
              rw [hm] at h0
              exact h0
            rcases List.mem_cons.mp hmem with heq | hmem'
            · injection heq with h1 _
              exact absurd (h1.trans hmod0) hnm
            · obtain ⟨e1, he1, _⟩ := ctxExt_getResourceEntry hext1 he
              exact ih ctx1 ctx' hrun hmem' hbt hnm he1
          | exn => simp [hm] at hrun
          | fuelOut => simp [hm] at hrun
        | resourceConfigs _ => simp at hrun
      · rw [if_neg hmod0] at hrun
        cases cfgs0 with
        | resourceConfigs es0 =>
          dsimp only at hrun
          rcases List.mem_cons.mp hmem with heq | hmem'
          · injection heq with h1 _
            subst h1
            have h1' := getResourceEntry_appendAllResources (f := f) sk he
            have hext : CtxExt
                (aupd ctx f fun fc => aupd fc bt (cfgsAppendAllResources sk)) ctx' := by
              have h0 := pushBlocksGo_ext hrec defs sk f rest
                (aupd ctx f fun fc => aupd fc bt (cfgsAppendAllResources sk))
              rw [hrun] at h0
              exact h0
            exact ctxExt_resource_block hext h1' (entryHasBlock_append sk e)
          · have hext0 : CtxExt ctx
                (aupd ctx f fun fc => aupd fc bt0 (cfgsAppendAllResources sk)) :=
              ctxExt_appendAllResources ctx f bt0 sk
            obtain ⟨e1, he1, _⟩ := ctxExt_getResourceEntry hext0 he
            exact ih _ ctx' hrun hmem' hbt hnm he1
        | moduleConfigs _ => simp at hrun
    · rw [if_neg hbt0] at hrun
      rcases List.mem_cons.mp hmem with heq | hmem'
      · injection heq with h1 _
        exact absurd (h1 ▸ hbt) hbt0
      · exact ih ctx ctx' hrun hmem' hbt hnm he

theorem pushBlocksGo_module_append
    {recurse : List String → DefinitionContext → DefinitionContext × PushResult}
    (hrec : ∀ ps c, CtxExt c (recurse ps c).1)
    (defs : Definitions) (sk : List SkipDirective) (f : String) :
    ∀ (items : List (String × BlockConfigs)) (ctx ctx' : DefinitionContext)
      {es : List (String × ContextEntry)} {name : String} {e : ContextEntry},
      pushBlocksGo recurse defs sk f items ctx = (ctx', .ok) →
      ("module", BlockConfigs.moduleConfigs es) ∈ items →
      name ∈ es.map Prod.fst →
      getModuleEntry ctx f name = some e →
      ∃ e', getModuleEntry ctx' f name = some e' ∧ entryHasBlock sk e' := by
  intro items
  induction items with
  | nil =>
    intro ctx ctx' es name e _ hmem _ _
    exact absurd hmem (List.not_mem_nil _)
  | cons item rest ih =>
    intro ctx ctx' es name e hrun hmem hname he
    rcases item with ⟨bt0, cfgs0⟩
    simp only [pushBlocksGo] at hrun
    by_cases hbt0 : bt0 ∈ CHECK_BLOCK_TYPES
    · rw [if_pos hbt0] at hrun
      by_cases hmod0 : bt0 = "module"
      · rw [if_pos hmod0] at hrun
        cases cfgs0 with
        | moduleConfigs entries =>
          dsimp only at hrun
          rcases hm : pushModulesGo recurse defs sk f (entries.map Prod.fst) ctx
            with ⟨ctx1, r1⟩
          cases r1 with
          | ok =>
            simp only [hm] at hrun
            have hext1 : CtxExt ctx ctx1 := by
              have h0 := pushModulesGo_ext hrec defs sk f (entries.map Prod.fst) ctx
              rw [hm] at h0
              exact h0
            have hext2 : CtxExt ctx1 ctx' := by
              have h0 := pushBlocksGo_ext hrec defs sk f rest ctx1
              rw [hrun] at h0
              exact h0
            rcases List.mem_cons.mp hmem with heq | hmem'
            · injection heq with _ h2
              injection h2 with h2'
              subst h2'
              obtain ⟨e1, he1, hb1⟩ :=
                pushModulesGo_append hrec defs sk f (es.map Prod.fst) ctx ctx1 hm hname he
              exact ctxExt_module_block hext2 he1 hb1
            · obtain ⟨e1, he1, _⟩ := ctxExt_getModuleEntry hext1 he
              exact ih ctx1 ctx' hrun hmem' hname he1
          | exn => simp [hm] at hrun
          | fuelOut => simp [hm] at hrun
        | resourceConfigs _ =>
          rcases List.mem_cons.mp hmem with heq | _
          · injection heq with _ h2
            exact absurd h2 (by simp)
          · simp at hrun
      · rw [if_neg hmod0] at hrun
        cases cfgs0 with
        | resourceConfigs es0 =>
          dsimp only at hrun
          rcases List.mem_cons.mp hmem with heq | hmem'
          · injection heq with h1 _
            exact absurd h1.symm hmod0
          · have hext0 : CtxExt ctx
                (aupd ctx f fun fc => aupd fc bt0 (cfgsAppendAllResources sk)) :=
              ctxExt_appendAllResources ctx f bt0 sk
            obtain ⟨e1, he1, _⟩ := ctxExt_getModuleEntry hext0 he
            exact ih _ ctx' hrun hmem' hname he1
        | moduleConfigs _ => simp at hrun
    · rw [if_neg hbt0] at hrun
      rcases List.mem_cons.mp hmem with heq | hmem'
      · injection heq with h1 _
        exact absurd (h1 ▸ (by decide : "module" ∈ CHECK_BLOCK_TYPES)) hbt0
      · exact ih ctx ctx' hrun hmem' hname he

theorem pushFilesGo_resource_append
    {recurse : List String → DefinitionContext → DefinitionContext × PushResult}
    (hrec : ∀ ps c, CtxExt c (recurse ps c).1)
    (defs : Definitions) (sk : List SkipDirective) :
    ∀ (files : List String) (ctx ctx' : DefinitionContext)
      {f bt rt rn : String} {e : ContextEntry},
      pushFilesGo recurse defs sk files ctx = (ctx', .ok) →
      f ∈ files → bt ∈ CHECK_BLOCK_TYPES → bt ≠ "module" →
      getResourceEntry ctx f bt rt rn = some e →
      ∃ e', getResourceEntry ctx' f bt rt rn = some e' ∧ entryHasBlock sk e' := by
  intro files
  induction files with
  | nil =>
    intro ctx ctx' f bt rt rn e _ hmem _ _ _
    exact absurd hmem (List.not_mem_nil _)
  | cons f0 rest ih =>
    intro ctx ctx' f bt rt rn e hrun hmem hbt hnm he
    simp only [pushFilesGo] at hrun
    rcases hb : pushBlocksGo recurse defs sk f0 ((alook ctx f0).getD []) ctx
      with ⟨ctx1, r1⟩
    cases r1 with
    | ok =>
      simp only [hb] at hrun
      have hext1 : CtxExt ctx ctx1 := by
        have h0 := pushBlocksGo_ext hrec defs sk f0 ((alook ctx f0).getD []) ctx
        rw [hb] at h0
        exact h0
      have hext2 : CtxExt ctx1 ctx' := by
        have h0 := pushFilesGo_ext hrec defs sk rest ctx1
        rw [hrun] at h0
        exact h0
      rcases List.mem_cons.mp hmem with rfl | hmem'
      · obtain ⟨fc, es, hfc, hin⟩ := getResourceEntry_mem he
        have hitems : (alook ctx f).getD [] = fc := by rw [hfc]; rfl
        rw [hitems] at hb
        obtain ⟨e1, he1, hb1⟩ :=
          pushBlocksGo_resource_append hrec defs sk f fc ctx ctx1 hb hin hbt hnm he
        exact ctxExt_resource_block hext2 he1 hb1
      · obtain ⟨e1, he1, _⟩ := ctxExt_getResourceEntry hext1 he
        exact ih ctx1 ctx' hrun hmem' hbt hnm he1
    | exn => simp [hb] at hrun
    | fuelOut => simp [hb] at hrun

theorem pushFilesGo_module_append
    {recurse : List String → DefinitionContext → DefinitionContext × PushResult}
    (hrec : ∀ ps c, CtxExt c (recurse ps c).1)
    (defs : Definitions) (sk : List SkipDirective) :
    ∀ (files : List String) (ctx ctx' : DefinitionContext)
      {f name : String} {e : ContextEntry},
      pushFilesGo recurse defs sk files ctx = (ctx', .ok) →
      f ∈ files →
      getModuleEntry ctx f name = some e →
      ∃ e', getModuleEntry ctx' f name = some e' ∧ entryHasBlock sk e' := by
  intro files
  induction files with
  | nil =>
    intro ctx ctx' f name e _ hmem _
    exact absurd hmem (List.not_mem_nil _)
  | cons f0 rest ih =>
    intro ctx ctx' f name e hrun hmem he
    simp only [pushFilesGo] at hrun
    rcases hb : pushBlocksGo recurse defs sk f0 ((alook ctx f0).getD []) ctx
      with ⟨ctx1, r1⟩
    cases r1 with
    | ok =>
      simp only [hb] at hrun
      have hext1 : CtxExt ctx ctx1 := by
        have h0 := pushBlocksGo_ext hrec defs sk f0 ((alook ctx f0).getD []) ctx
        rw [hb] at h0
        exact h0
      have hext2 : CtxExt ctx1 ctx' := by
        have h0 := pushFilesGo_ext hrec defs sk rest ctx1
        rw [hrun] at h0
        exact h0
      rcases List.mem_cons.mp hmem with rfl | hmem'
      · obtain ⟨fc, es, hfc, hin, hname⟩ := getModuleEntry_mem he
        have hitems : (alook ctx f).getD [] = fc := by rw [hfc]; rfl
        rw [hitems] at hb
        obtain ⟨e1, he1, hb1⟩ :=
          pushBlocksGo_module_append hrec defs sk f fc ctx ctx1 hb hin hname he
        exact ctxExt_module_block hext2 he1 hb1
      · obtain ⟨e1, he1, _⟩ := ctxExt_getModuleEntry hext1 he
        exact ih ctx1 ctx' hrun hmem' he1
    | exn => simp [hb] at hrun
    | fuelOut => simp [hb] at hrun

theorem entryHasBlock_nil (e : ContextEntry) : entryHasBlock [] e :=
  ⟨e.skipped_checks, [], by simp⟩

theorem push_down_resource_append (defs : Definitions) :
    ∀ (fuel : Nat) (sk : List SkipDirective) (paths : List String)
      (ctx ctx' : DefinitionContext) {f bt rt rn : String} {e : ContextEntry},
      push_skipped_checks_down defs fuel sk paths ctx = (ctx', .ok) →
      f ∈ paths → bt ∈ CHECK_BLOCK_TYPES → bt ≠ "module" →
      getResourceEntry ctx f bt rt rn = some e →
      ∃ e', getResourceEntry ctx' f bt rt rn = some e' ∧ entryHasBlock sk e' := by
  intro fuel sk paths ctx ctx' f bt rt rn e hrun hmem hbt hnm he
  have hpaths : ¬ paths.isEmpty := by
    cases paths with
    | nil => exact absurd hmem (List.not_mem_nil _)
    | cons _ _ => simp
  by_cases hsk : sk.isEmpty
  · have hsk' : sk = [] := List.isEmpty_iff.mp hsk
    cases fuel <;>
      · unfold push_skipped_checks_down at hrun
        rw [hsk'] at hrun ⊢
        simp only [List.isEmpty_nil, Bool.true_or, if_true] at hrun
        cases hrun
        exact ⟨e, he, entryHasBlock_nil e⟩
  · cases fuel with
    | zero =>
      unfold push_skipped_checks_down at hrun
      simp [hsk, hpaths] at hrun
    | succ fuel =>
      unfold push_skipped_checks_down at hrun
      rw [if_neg (by simp [hsk, hpaths])] at hrun
      exact pushFilesGo_resource_append
        (fun ps c => push_skipped_checks_down_ext defs fuel sk ps c)
        defs sk paths ctx ctx' hrun hmem hbt hnm he

theorem push_down_module_append (defs : Definitions) :
    ∀ (fuel : Nat) (sk : List SkipDirective) (paths : List String)
      (ctx ctx' : DefinitionContext) {f name : String} {e : ContextEntry},
      push_skipped_checks_down defs fuel sk paths ctx = (ctx', .ok) →
      f ∈ paths →
      getModuleEntry ctx f name = some e →
      ∃ e', getModuleEntry ctx' f name = some e' ∧ entryHasBlock sk e' := by
  intro fuel sk paths ctx ctx' f name e hrun hmem he
  have hpaths : ¬ paths.isEmpty := by
    cases paths with
    | nil => exact absurd hmem (List.not_mem_nil _)
    | cons _ _ => simp
  by_cases hsk : sk.isEmpty
  · have hsk' : sk = [] := List.isEmpty_iff.mp hsk
    cases fuel <;>
      · unfold push_skipped_checks_down at hrun
        rw [hsk'] at hrun ⊢
        simp only [List.isEmpty_nil, Bool.true_or, if_true] at hrun
        cases hrun
        exact ⟨e, he, entryHasBlock_nil e⟩
  · cases fuel with
    | zero =>
      unfold push_skipped_checks_down at hrun
      simp [hsk, hpaths] at hrun
    | succ fuel =>
      unfold push_skipped_checks_down at hrun
      rw [if_neg (by simp [hsk, hpaths])] at hrun
      exact pushFilesGo_module_append
        (fun ps c => push_skipped_checks_down_ext defs fuel sk ps c)
        defs sk paths ctx ctx' hrun hmem he

/-! ## The module instantiation graph seen by the propagation engine -/

/-- The module names a file context offers to the propagation loop (the
keys of its `module`-shaped block-config items). -/
def fileModuleNames : FileContext → List String
  | [] => []
  | (bt, cfgs) :: rest =>
    (if bt = "module" then
      match cfgs with
      | .moduleConfigs es => es.map Prod.fst
      | .resourceConfigs _ => []
     else []) ++ fileModuleNames rest

/-- Module names of file `f` in the context index. -/
def moduleNames (ctx : DefinitionContext) (f : String) : List String :=
  match alook ctx f with
  | none => []
  | some fc => fileModuleNames fc

theorem fileModuleNames_ext {fc fc' : FileContext} (h : FileExt fc fc') :
    fileModuleNames fc = fileModuleNames fc' := by
  induction h with
  | nil => rfl
  | @cons p q t u hk hr _ ih =>
    rcases p with ⟨bt, cfgs⟩
    rcases q with ⟨bt', cfgs'⟩
    simp only at hk
    subst hk
    cases hr with
    | modules pw => simp [fileModuleNames, ih, pw_keys pw]
    | resources _ => simp [fileModuleNames, ih]

theorem moduleNames_ext {c c' : DefinitionContext} (h : CtxExt c c')
    (f : String) : moduleNames c f = moduleNames c' f := by
  unfold moduleNames
  rcases pw_alook_rel h f with ⟨h1, h1'⟩ | ⟨fc, fc', h1, h1', hfc⟩
  · rw [h1, h1']
  · rw [h1, h1']
    exact fileModuleNames_ext hfc

theorem fileModuleNames_mem {fc : FileContext} {name : String}
    (h : name ∈ fileModuleNames fc) :
    ∃ es, ("module", BlockConfigs.moduleConfigs es) ∈ fc ∧
      name ∈ es.map Prod.fst := by
  induction fc with
  | nil => exact absurd h (List.not_mem_nil _)
  | cons p rest ih =>
    rcases p with ⟨bt, cfgs⟩
    simp only [fileModuleNames] at h
    rcases List.mem_append.mp h with hl | hr
    · by_cases hbt : bt = "module"
      · rw [if_pos hbt] at hl
        cases cfgs with
        | moduleConfigs es =>
          exact ⟨es, by rw [hbt]; exact List.mem_cons_self _ _, hl⟩
        | resourceConfigs _ => exact absurd hl (List.not_mem_nil _)
      · rw [if_neg hbt] at hl
        exact absurd hl (List.not_mem_nil _)
    · obtain ⟨es, hin, hn⟩ := ih hr
      exact ⟨es, List.mem_cons_of_mem _ hin, hn⟩

/-- One step of the module instantiation graph as traversed by
`push_skipped_checks_down`: file `f` has a module entry `name` in the
context, the parsed definitions resolve `(f, name)` without raising, and
`f'` is one of the resolved child paths. -/
def childRel (defs : Definitions) (ctx : DefinitionContext) (f f' : String) :
    Prop :=
  ∃ name o, name ∈ moduleNames ctx f ∧
    findModuleResolved defs f name = some o ∧ f' ∈ o.getD []

theorem childRel_ext {defs : Definitions} {c c' : DefinitionContext}
    (h : CtxExt c c') {f f' : String} (hc : childRel defs c f f') :
    childRel defs c' f f' := by
  obtain ⟨name, o, hn, ho, hf⟩ := hc
  exact ⟨name, o, (moduleNames_ext h f) ▸ hn, ho, hf⟩

/-- Files reachable from a set of resolved child paths through the
module instantiation graph, exactly as the recursion of
`push_skipped_checks_down` walks it. -/
inductive Reaches (defs : Definitions) (ctx : DefinitionContext) :
    List String → String → Prop
  | here {paths : List String} {f : String} :
      f ∈ paths → Reaches defs ctx paths f
  | down {paths : List String} {f name : String} {o : Option (List String)}
      {f' : String} :
      f ∈ paths → name ∈ moduleNames ctx f →
      findModuleResolved defs f name = some o →
      Reaches defs ctx (o.getD []) f' →
      Reaches defs ctx paths f'

theorem Reaches_ext {defs : Definitions} {c c' : DefinitionContext}
    (h : CtxExt c c') {paths : List String} {f : String}
    (hr : Reaches defs c paths f) : Reaches defs c' paths f := by
  induction hr with
  | here hmem => exact .here hmem
  | down hmem hn ho _ ih =>
    exact .down hmem ((moduleNames_ext h _) ▸ hn) ho ih

/-! ## Occurrence of the recursive call on a successful run -/

theorem pushModulesGo_call
    {recurse : List String → DefinitionContext → DefinitionContext × PushResult}
    (hrec : ∀ ps c, CtxExt c (recurse ps c).1)
    (defs : Definitions) (sk : List SkipDirective) (f : String) :
    ∀ (names : List String) (ctx ctx' : DefinitionContext) {name : String}
      {o : Option (List String)},
      pushModulesGo recurse defs sk f names ctx = (ctx', .ok) →
      name ∈ names → findModuleResolved defs f name = some o →
      ∃ c1 c2, CtxExt ctx c1 ∧ recurse (o.getD []) c1 = (c2, .ok) ∧
        CtxExt c2 ctx' := by
  intro names
  induction names with
  | nil =>
    intro ctx ctx' name o _ hmem _
    exact absurd hmem (List.not_mem_nil _)
  | cons n0 rest ih =>
    intro ctx ctx' name o hrun hmem hfro
    simp only [pushModulesGo] at hrun
    cases hfr : findModuleResolved defs f n0 with
    | none => simp [hfr] at hrun
    | some o0 =>
      simp only [hfr] at hrun
      rcases hr : recurse (o0.getD []) (ctxAppendModule ctx f n0 sk) with ⟨ctx2, r2⟩
      cases r2 with
      | ok =>
        simp only [hr] at hrun
        have hext1 : CtxExt ctx (ctxAppendModule ctx f n0 sk) :=
          ctxExt_appendModule ctx f n0 sk
        have hext2 : CtxExt (ctxAppendModule ctx f n0 sk) ctx2 := by
          have h0 := hrec (o0.getD []) (ctxAppendModule ctx f n0 sk)
          rw [hr] at h0
          exact h0
        have hext3 : CtxExt ctx2 ctx' := by
          have h0 := pushModulesGo_ext hrec defs sk f rest ctx2
          rw [hrun] at h0
          exact h0
        rcases List.mem_cons.mp hmem with rfl | hmem'
        · have : o = o0 := by
            have := hfro.symm.trans hfr
            exact Option.some.inj this
          subst this
          exact ⟨ctxAppendModule ctx f name sk, ctx2, hext1, hr, hext3⟩
        · obtain ⟨c1, c2, hc1, hcall, hc2⟩ := ih ctx2 ctx' hrun hmem' hfro
          exact ⟨c1, c2, ctxExt_trans (ctxExt_trans hext1 hext2) hc1, hcall, hc2⟩
      | exn => simp [hr] at hrun
      | fuelOut => simp [hr] at hrun

theorem pushBlocksGo_call
    {recurse : List String → DefinitionContext → DefinitionContext × PushResult}
    (hrec : ∀ ps c, CtxExt c (recurse ps c).1)
    (defs : Definitions) (sk : List SkipDirective) (f : String) :
    ∀ (items : List (String × BlockConfigs)) (ctx ctx' : DefinitionContext)
      {es : List (String × ContextEntry)} {name : String}
      {o : Option (List String)},
      pushBlocksGo recurse defs sk f items ctx = (ctx', .ok) →
      ("module", BlockConfigs.moduleConfigs es) ∈ items →
      name ∈ es.map Prod.fst →
      findModuleResolved defs f name = some o →
      ∃ c1 c2, CtxExt ctx c1 ∧ recurse (o.getD []) c1 = (c2, .ok) ∧
        CtxExt c2 ctx' := by
  intro items
  induction items with
  | nil =>
    intro ctx ctx' es name o _ hmem _ _
    exact absurd hmem (List.not_mem_nil _)
  | cons item rest ih =>
    intro ctx ctx' es name o hrun hmem hname hfro
    rcases item with ⟨bt0, cfgs0⟩
    simp only [pushBlocksGo] at hrun
    by_cases hbt0 : bt0 ∈ CHECK_BLOCK_TYPES
    · rw [if_pos hbt0] at hrun
      by_cases hmod0 : bt0 = "module"
      · rw [if_pos hmod0] at hrun
        cases cfgs0 with
        | moduleConfigs entries =>
          dsimp only at hrun
          rcases hm : pushModulesGo recurse defs sk f (entries.map Prod.fst) ctx
            with ⟨ctx1, r1⟩
          cases r1 with
          | ok =>
            simp only [hm] at hrun
            have hext2 : CtxExt ctx1 ctx' := by
              have h0 := pushBlocksGo_ext hrec defs sk f rest ctx1
              rw [hrun] at h0
              exact h0
            have hext1 : CtxExt ctx ctx1 := by
              have h0 := pushModulesGo_ext hrec defs sk f (entries.map Prod.fst) ctx
              rw [hm] at h0
              exact h0
            rcases List.mem_cons.mp hmem with heq | hmem'
            · injection heq with _ h2
              injection h2 with h2'
              subst h2'
              obtain ⟨c1, c2, hc1, hcall, hc2⟩ :=
                pushModulesGo_call hrec defs sk f (es.map Prod.fst) ctx ctx1
                  hm hname hfro
              exact ⟨c1, c2, hc1, hcall, ctxExt_trans hc2 hext2⟩
            · obtain ⟨c1, c2, hc1, hcall, hc2⟩ := ih ctx1 ctx' hrun hmem' hname hfro
              exact ⟨c1, c2, ctxExt_trans hext1 hc1, hcall, hc2⟩
          | exn => simp [hm] at hrun
          | fuelOut => simp [hm] at hrun
        | resourceConfigs _ =>
          rcases List.mem_cons.mp hmem with heq | _
          · injection heq with _ h2
            exact absurd h2 (by simp)
          · simp at hrun
      · rw [if_neg hmod0] at hrun
        cases cfgs0 with
        | resourceConfigs es0 =>
          dsimp only at hrun
          rcases List.mem_cons.mp hmem with heq | hmem'
          · injection heq with h1 _
            exact absurd h1.symm hmod0
          · have hext0 : CtxExt ctx
                (aupd ctx f fun fc => aupd fc bt0 (cfgsAppendAllResources sk)) :=
              ctxExt_appendAllResources ctx f bt0 sk
            obtain ⟨c1, c2, hc1, hcall, hc2⟩ := ih _ ctx' hrun hmem' hname hfro
            exact ⟨c1, c2, ctxExt_trans hext0 hc1, hcall, hc2⟩
        | moduleConfigs _ => simp at hrun
    · rw [if_neg hbt0] at hrun
      rcases List.mem_cons.mp hmem with heq | hmem'
      · injection heq with h1 _
        exact absurd (h1 ▸ (by decide : "module" ∈ CHECK_BLOCK_TYPES)) hbt0
      · exact ih ctx ctx' hrun hmem' hname hfro

theorem pushFilesGo_call
    {recurse : List String → DefinitionContext → DefinitionContext × PushResult}
    (hrec : ∀ ps c, CtxExt c (recurse ps c).1)
    (defs : Definitions) (sk : List SkipDirective) :
    ∀ (files : List String) (ctx ctx' : DefinitionContext)
      {f name : String} {o : Option (List String)},
      pushFilesGo recurse defs sk files ctx = (ctx', .ok) →
      f ∈ files → name ∈ moduleNames ctx f →
      findModuleResolved defs f name = some o →
      ∃ c1 c2, CtxExt ctx c1 ∧ recurse (o.getD []) c1 = (c2, .ok) ∧
        CtxExt c2 ctx' := by
  intro files
  induction files with
  | nil =>
    intro ctx ctx' f name o _ hmem _ _
    exact absurd hmem (List.not_mem_nil _)
  | cons f0 rest ih =>
    intro ctx ctx' f name o hrun hmem hmn hfro
    simp only [pushFilesGo] at hrun
    rcases hb : pushBlocksGo recurse defs sk f0 ((alook ctx f0).getD []) ctx
      with ⟨ctx1, r1⟩
    cases r1 with
    | ok =>
      simp only [hb] at hrun
      have hext1 : CtxExt ctx ctx1 := by
        have h0 := pushBlocksGo_ext hrec defs sk f0 ((alook ctx f0).getD []) ctx
        rw [hb] at h0
        exact h0
      have hext2 : CtxExt ctx1 ctx' := by
        have h0 := pushFilesGo_ext hrec defs sk rest ctx1
        rw [hrun] at h0
        exact h0
      rcases List.mem_cons.mp hmem with rfl | hmem'
      · unfold moduleNames at hmn
        cases hfc : alook ctx f with
        | none => rw [hfc] at hmn; exact absurd hmn (List.not_mem_nil _)
        | some fc =>
          rw [hfc] at hmn
          obtain ⟨es, hin, hname⟩ := fileModuleNames_mem hmn
          have hitems : (alook ctx f).getD [] = fc := by rw [hfc]; rfl
          rw [hitems] at hb
          obtain ⟨c1, c2, hc1, hcall, hc2⟩ :=
            pushBlocksGo_call hrec defs sk f fc ctx ctx1 hb hin hname hfro
          exact ⟨c1, c2, hc1, hcall, ctxExt_trans hc2 hext2⟩
      · obtain ⟨c1, c2, hc1, hcall, hc2⟩ := ih ctx1 ctx' hrun hmem'
          ((moduleNames_ext hext1 f) ▸ hmn) hfro
        exact ⟨c1, c2, ctxExt_trans hext1 hc1, hcall, hc2⟩
    | exn => simp [hb] at hrun
    | fuelOut => simp [hb] at hrun

theorem push_down_call (defs : Definitions) :
    ∀ (fuel : Nat) (sk : List SkipDirective) (paths : List String)
      (ctx ctx' : DefinitionContext) {f name : String}
      {o : Option (List String)},
      push_skipped_checks_down defs (fuel + 1) sk paths ctx = (ctx', .ok) →
      ¬ sk.isEmpty → f ∈ paths → name ∈ moduleNames ctx f →
      findModuleResolved defs f name = some o →
      ∃ c1 c2, CtxExt ctx c1 ∧
        push_skipped_checks_down defs fuel sk (o.getD []) c1 = (c2, .ok) ∧
        CtxExt c2 ctx' := by
  intro fuel sk paths ctx ctx' f name o hrun hsk hmem hmn hfro
  have hpaths : ¬ paths.isEmpty := by
    cases paths with
    | nil => exact absurd hmem (List.not_mem_nil _)
    | cons _ _ => simp
  unfold push_skipped_checks_down at hrun
  rw [if_neg (by simp [hsk, hpaths])] at hrun
  exact pushFilesGo_call
    (fun ps c => push_skipped_checks_down_ext defs fuel sk ps c)
    defs sk paths ctx ctx' hrun hmem hmn hfro

/-- Resources in any file reachable through the module instantiation
graph receive the directives on a successful run, at any depth. -/
theorem push_down_reaches_resource (defs : Definitions) :
    ∀ (fuel : Nat) (sk : List SkipDirective) (paths : List String)
      (ctx ctx' : DefinitionContext),
      push_skipped_checks_down defs fuel sk paths ctx = (ctx', .ok) →
      ∀ {f' bt rt rn : String} {e : ContextEntry},
        Reaches defs ctx paths f' →
        bt ∈ CHECK_BLOCK_TYPES → bt ≠ "module" →
        getResourceEntry ctx f' bt rt rn = some e →
        ∃ e', getResourceEntry ctx' f' bt rt rn = some e' ∧
          entryHasBlock sk e' := by
  intro fuel
  induction fuel with
  | zero =>
    intro sk paths ctx ctx' hrun f' bt rt rn e hreach hbt hnm he
    cases hreach with
    | here hmem => exact push_down_resource_append defs 0 sk paths ctx ctx' hrun hmem hbt hnm he
    | down hmem hmn hfro htail =>
      by_cases hsk : sk.isEmpty
      · have hsk' : sk = [] := List.isEmpty_iff.mp hsk
        unfold push_skipped_checks_down at hrun
        rw [hsk'] at hrun ⊢
        simp only [List.isEmpty_nil, Bool.true_or, if_true] at hrun
        cases hrun
        exact ⟨e, he, entryHasBlock_nil e⟩
      · have hpaths : ¬ paths.isEmpty := by
          cases paths with
          | nil => exact absurd hmem (List.not_mem_nil _)
          | cons _ _ => simp
        unfold push_skipped_checks_down at hrun
        simp [hsk, hpaths] at hrun
  | succ fuel ih =>
    intro sk paths ctx ctx' hrun f' bt rt rn e hreach hbt hnm he
    cases hreach with
    | here hmem =>
      exact push_down_resource_append defs (fuel + 1) sk paths ctx ctx' hrun
        hmem hbt hnm he
    | down hmem hmn hfro htail =>
      by_cases hsk : sk.isEmpty
      · have hsk' : sk = [] := List.isEmpty_iff.mp hsk
        unfold push_skipped_checks_down at hrun
        rw [hsk'] at hrun ⊢
        simp only [List.isEmpty_nil, Bool.true_or, if_true] at hrun
        cases hrun
        exact ⟨e, he, entryHasBlock_nil e⟩
      · obtain ⟨c1, c2, hc1, hcall, hc2⟩ :=
          push_down_call defs fuel sk paths ctx ctx' hrun hsk hmem hmn hfro
        obtain ⟨e1, he1, _⟩ := ctxExt_getResourceEntry hc1 he
        obtain ⟨e2, he2, hb2⟩ := ih sk _ c1 c2 hcall (Reaches_ext hc1 htail)
          hbt hnm he1
        exact ctxExt_resource_block hc2 he2 hb2

/-! ## Fuel sufficiency under a ranked (acyclic) module graph -/

theorem fileModuleNames_mem_of {fc : FileContext}
    {es : List (String × ContextEntry)} {name : String}
    (hin : ("module", BlockConfigs.moduleConfigs es) ∈ fc)
    (hn : name ∈ es.map Prod.fst) : name ∈ fileModuleNames fc := by
  induction fc with
  | nil => exact absurd hin (List.not_mem_nil _)
  | cons p rest ih =>
    rcases p with ⟨bt, cfgs⟩
    simp only [fileModuleNames]
    rcases List.mem_cons.mp hin with heq | hmem
    · injection heq with h1 h2
      subst h1
      subst h2
      simp [hn]
    · exact List.mem_append_right _ (ih hmem)

theorem childRel_ext_rev {defs : Definitions} {c c' : DefinitionContext}
    (h : CtxExt c c') {f f' : String} (hc : childRel defs c' f f') :
    childRel defs c f f' := by
  obtain ⟨name, o, hn, ho, hf⟩ := hc
  exact ⟨name, o, (moduleNames_ext h f) ▸ hn, ho, hf⟩

theorem pushModulesGoNF
    {recurse : List String → DefinitionContext → DefinitionContext × PushResult}
    (hrecExt : ∀ ps c, CtxExt c (recurse ps c).1)
    (defs : Definitions) (sk : List SkipDirective) (f : String)
    (ctx0 : DefinitionContext) (rank : String → Nat) (fuelRec : Nat)
    (hrank : ∀ g g', childRel defs ctx0 g g' → rank g' < rank g)
    (hrecNF : ∀ ps c, CtxExt ctx0 c → (∀ p ∈ ps, rank p < fuelRec) →
      (recurse ps c).2 ≠ .fuelOut)
    (hf : rank f ≤ fuelRec) :
    ∀ (names : List String) (ctx : DefinitionContext),
      CtxExt ctx0 ctx →
      (∀ n ∈ names, n ∈ moduleNames ctx0 f) →
      (pushModulesGo recurse defs sk f names ctx).2 ≠ .fuelOut := by
  intro names
  induction names with
  | nil => intro ctx _ _; simp [pushModulesGo]
  | cons n0 rest ih =>
    intro ctx hctx hnames
    simp only [pushModulesGo]
    cases hfr : findModuleResolved defs f n0 with
    | none => simp
    | some o =>
      dsimp only
      have hctx1 : CtxExt ctx0 (ctxAppendModule ctx f n0 sk) :=
        ctxExt_trans hctx (ctxExt_appendModule ctx f n0 sk)
      have hchild : ∀ p ∈ o.getD [], rank p < fuelRec := by
        intro p hp
        have hcr : childRel defs ctx0 f p :=
          ⟨n0, o, hnames n0 (List.mem_cons_self _ _), hfr, hp⟩
        exact lt_of_lt_of_le (hrank f p hcr) hf
      rcases hr : recurse (o.getD []) (ctxAppendModule ctx f n0 sk) with ⟨ctx2, r2⟩
      have hnf := hrecNF (o.getD []) (ctxAppendModule ctx f n0 sk) hctx1 hchild
      rw [hr] at hnf
      cases r2 with
      | ok =>
        dsimp only
        have hctx2 : CtxExt ctx0 ctx2 := by
          have h0 := hrecExt (o.getD []) (ctxAppendModule ctx f n0 sk)
          rw [hr] at h0
          exact ctxExt_trans hctx1 h0
        exact ih ctx2 hctx2 (fun n hn => hnames n (List.mem_cons_of_mem _ hn))
      | exn => simp
      | fuelOut => exact absurd rfl hnf

theorem pushBlocksGoNF
    {recurse : List String → DefinitionContext → DefinitionContext × PushResult}
    (hrecExt : ∀ ps c, CtxExt c (recurse ps c).1)
    (defs : Definitions) (sk : List SkipDirective) (f : String)
    (ctx0 : DefinitionContext) (rank : String → Nat) (fuelRec : Nat)
    (hrank : ∀ g g', childRel defs ctx0 g g' → rank g' < rank g)
    (hrecNF : ∀ ps c, CtxExt ctx0 c → (∀ p ∈ ps, rank p < fuelRec) →
      (recurse ps c).2 ≠ .fuelOut)
    (hf : rank f ≤ fuelRec) :
    ∀ (items : List (String × BlockConfigs)) (ctx : DefinitionContext),
      CtxExt ctx0 ctx →
      (∀ es, ("module", BlockConfigs.moduleConfigs es) ∈ items →
        ∀ n ∈ es.map Prod.fst, n ∈ moduleNames ctx0 f) →
      (pushBlocksGo recurse defs sk f items ctx).2 ≠ .fuelOut := by
  intro items
  induction items with
  | nil => intro ctx _ _; simp [pushBlocksGo]
  | cons item rest ih =>
    intro ctx hctx hitems
    rcases item with ⟨bt0, cfgs0⟩
    simp only [pushBlocksGo]
    by_cases hbt0 : bt0 ∈ CHECK_BLOCK_TYPES
    · rw [if_pos hbt0]
      by_cases hmod0 : bt0 = "module"
      · rw [if_pos hmod0]
        cases cfgs0 with
        | moduleConfigs entries =>
          dsimp only
          rcases hm : pushModulesGo recurse defs sk f (entries.map Prod.fst) ctx
            with ⟨ctx1, r1⟩
          have hnames : ∀ n ∈ entries.map Prod.fst, n ∈ moduleNames ctx0 f := by
            intro n hn
            refine hitems entries ?_ n hn
            rw [hmod0]
            exact List.mem_cons_self _ _
          have hnf := pushModulesGoNF hrecExt defs sk f ctx0 rank fuelRec hrank
            hrecNF hf (entries.map Prod.fst) ctx hctx hnames
          rw [hm] at hnf
          cases r1 with
          | ok =>
            dsimp only
            have hctx1 : CtxExt ctx0 ctx1 := by
              have h0 := pushModulesGo_ext hrecExt defs sk f (entries.map Prod.fst) ctx
              rw [hm] at h0
              exact ctxExt_trans hctx h0
            exact ih ctx1 hctx1
              (fun es hin n hn => hitems es (List.mem_cons_of_mem _ hin) n hn)
          | exn => simp
          | fuelOut => exact absurd rfl hnf
        | resourceConfigs _ => simp
      · rw [if_neg hmod0]
        cases cfgs0 with
        | resourceConfigs es0 =>
          dsimp only
          have hctx1 : CtxExt ctx0
              (aupd ctx f fun fc => aupd fc bt0 (cfgsAppendAllResources sk)) :=
            ctxExt_trans hctx (ctxExt_appendAllResources ctx f bt0 sk)
          exact ih _ hctx1
            (fun es hin n hn => hitems es (List.mem_cons_of_mem _ hin) n hn)
        | moduleConfigs _ => simp
    · rw [if_neg hbt0]
      exact ih ctx hctx
        (fun es hin n hn => hitems es (List.mem_cons_of_mem _ hin) n hn)

theorem pushFilesGoNF
    {recurse : List String → DefinitionContext → DefinitionContext × PushResult}
    (hrecExt : ∀ ps c, CtxExt c (recurse ps c).1)
    (defs : Definitions) (sk : List SkipDirective)
    (ctx0 : DefinitionContext) (rank : String → Nat) (fuelRec : Nat)
    (hrank : ∀ g g', childRel defs ctx0 g g' → rank g' < rank g)
    (hrecNF : ∀ ps c, CtxExt ctx0 c → (∀ p ∈ ps, rank p < fuelRec) →
      (recurse ps c).2 ≠ .fuelOut) :
    ∀ (files : List String) (ctx : DefinitionContext),
      CtxExt ctx0 ctx →
      (∀ f ∈ files, rank f ≤ fuelRec) →
      (pushFilesGo recurse defs sk files ctx).2 ≠ .fuelOut := by
  intro files
  induction files with
  | nil => intro ctx _ _; simp [pushFilesGo]
  | cons f0 rest ih =>
    intro ctx hctx hfiles
    simp only [pushFilesGo]
    rcases hb : pushBlocksGo recurse defs sk f0 ((alook ctx f0).getD []) ctx
      with ⟨ctx1, r1⟩
    have hitems : ∀ es,
        ("module", BlockConfigs.moduleConfigs es) ∈ (alook ctx f0).getD [] →
        ∀ n ∈ es.map Prod.fst, n ∈ moduleNames ctx0 f0 := by
      intro es hin n hn
      cases hfc : alook ctx f0 with
      | none => rw [hfc] at hin; exact absurd hin (List.not_mem_nil _)
      | some fc =>
        rw [hfc] at hin
        simp only [Option.getD_some] at hin
        have h1 : n ∈ moduleNames ctx f0 := by
          unfold moduleNames
          rw [hfc]
          exact fileModuleNames_mem_of hin hn
        rw [moduleNames_ext hctx f0]
        exact h1
    have hnf := pushBlocksGoNF hrecExt defs sk f0 ctx0 rank fuelRec hrank hrecNF
      (hfiles f0 (List.mem_cons_self _ _)) ((alook ctx f0).getD []) ctx hctx hitems
    rw [hb] at hnf
    cases r1 with
    | ok =>
      dsimp only
      have hctx1 : CtxExt ctx0 ctx1 := by
        have h0 := pushBlocksGo_ext hrecExt defs sk f0 ((alook ctx f0).getD []) ctx
        rw [hb] at h0
        exact ctxExt_trans hctx h0
      exact ih ctx1 hctx1 (fun f hf => hfiles f (List.mem_cons_of_mem _ hf))
    | exn => simp
    | fuelOut => exact absurd rfl hnf

theorem push_downNF (defs : Definitions) (rank : String → Nat) :
    ∀ (fuel : Nat) (sk : List SkipDirective) (paths : List String)
      (ctx : DefinitionContext),
      (∀ g g', childRel defs ctx g g' → rank g' < rank g) →
      (∀ f ∈ paths, rank f < fuel) →
      (push_skipped_checks_down defs fuel sk paths ctx).2 ≠ .fuelOut := by
  intro fuel
  induction fuel with
  | zero =>
    intro sk paths ctx _ hpaths
    cases paths with
    | nil => simp [push_skipped_checks_down]
    | cons p t => exact absurd (hpaths p (List.mem_cons_self _ _)) (Nat.not_lt_zero _)
  | succ fuel ih =>
    intro sk paths ctx hrank hpaths
    unfold push_skipped_checks_down
    by_cases hempty : sk.isEmpty || paths.isEmpty
    · simp [hempty]
    · rw [if_neg hempty]
      refine pushFilesGoNF (fun ps c => push_skipped_checks_down_ext defs fuel sk ps c)
        defs sk ctx rank fuel hrank ?_ paths ctx (ctxExt_refl ctx)
        (fun f hf => Nat.lt_succ_iff.mp (hpaths f hf))
      intro ps c hc hps
      exact ih sk ps c
        (fun g g' hgg => hrank g g' (childRel_ext_rev hc hgg)) hps

/-! ## Claim theorems for skip propagation -/

/-- C3: on a successful run of `push_skipped_checks_down` with non-empty
directives and non-empty resolved paths, (1) every resource/data/provider
block entry in every resolved child file receives the directive block
appended, (2) every module block entry in a child file receives it too,
and (3) the recursion into each module's own resolved paths delivers the
directives to resource entries of every file reachable through the
module instantiation graph (`Reaches`), at any nesting depth. -/
theorem C3_push_skipped_checks_down_delivers :
    ∀ (defs : Definitions) (fuel : Nat) (sk : List SkipDirective)
      (paths : List String) (ctx ctx' : DefinitionContext),
      push_skipped_checks_down defs fuel sk paths ctx = (ctx', .ok) →
      sk ≠ [] → paths ≠ [] →
      (∀ {f bt rt rn : String} {e : ContextEntry}, f ∈ paths →
        bt ∈ CHECK_BLOCK_TYPES → bt ≠ "module" →
        getResourceEntry ctx f bt rt rn = some e →
        ∃ e', getResourceEntry ctx' f bt rt rn = some e' ∧
          entryHasBlock sk e') ∧
      (∀ {f name : String} {e : ContextEntry}, f ∈ paths →
        getModuleEntry ctx f name = some e →
        ∃ e', getModuleEntry ctx' f name = some e' ∧ entryHasBlock sk e') ∧
      (∀ {f' bt rt rn : String} {e : ContextEntry},
        Reaches defs ctx paths f' →
        bt ∈ CHECK_BLOCK_TYPES → bt ≠ "module" →
        getResourceEntry ctx f' bt rt rn = some e →
        ∃ e', getResourceEntry ctx' f' bt rt rn = some e' ∧
          entryHasBlock sk e') := by
  intro defs fuel sk paths ctx ctx' hrun _ _
  refine ⟨?_, ?_, ?_⟩
  · intro f bt rt rn e hmem hbt hnm he
    exact push_down_resource_append defs fuel sk paths ctx ctx' hrun hmem hbt hnm he
  · intro f name e hmem he
    exact push_down_module_append defs fuel sk paths ctx ctx' hrun hmem he
  · intro f' bt rt rn e hreach hbt hnm he
    exact push_down_reaches_resource defs fuel sk paths ctx ctx' hrun hreach hbt hnm he

/-- A context entry with no skip directives, used by concrete scenarios. -/
def exEntry : ContextEntry :=
  { start_line := some 1, end_line := some 3, code_lines := [], skipped_checks := [] }

/-- One concrete skip directive. -/
def exSk : List SkipDirective := [{ id := "CKV_AWS_1", suppress_comment := some "known" }]

/-- Context of a child file holding one resource and one nested module. -/
def exChildFc : FileContext :=
  [("resource", .resourceConfigs [("aws_s3_bucket", [("b", exEntry)])]),
   ("module", .moduleConfigs [("inner", exEntry)])]

/-- Context of the grandchild file holding one resource. -/
def exGrandFc : FileContext :=
  [("resource", .resourceConfigs [("aws_sns_topic", [("t", exEntry)])])]

/-- Concrete two-level context index. -/
def exCtx : DefinitionContext := [("child.tf", exChildFc), ("grand.tf", exGrandFc)]

/-- Concrete parsed definitions: `child.tf` declares module `inner`
resolving to `grand.tf`. -/
def exDefs : Definitions :=
  [("child.tf", { module_blocks := some [[("inner", some ["grand.tf"])]] })]

theorem C3_push_skipped_checks_down_delivers_witness :
    (∃ e', getResourceEntry
        (push_skipped_checks_down exDefs 2 exSk ["child.tf"] exCtx).1
        "grand.tf" "resource" "aws_sns_topic" "t" = some e' ∧
        entryHasBlock exSk e') ∧
    (∃ e', getModuleEntry
        (push_skipped_checks_down exDefs 2 exSk ["child.tf"] exCtx).1
        "child.tf" "inner" = some e' ∧ entryHasBlock exSk e') := by
  have hrun : push_skipped_checks_down exDefs 2 exSk ["child.tf"] exCtx
      = ((push_skipped_checks_down exDefs 2 exSk ["child.tf"] exCtx).1, .ok) := by
    decide
  have h := C3_push_skipped_checks_down_delivers exDefs 2 exSk ["child.tf"] exCtx
    (push_skipped_checks_down exDefs 2 exSk ["child.tf"] exCtx).1 hrun
    (by decide) (by decide)
  refine ⟨?_, ?_⟩
  · refine h.2.2 ?_ (by decide) (by decide)
      (rfl : getResourceEntry exCtx "grand.tf" "resource" "aws_sns_topic" "t"
        = some exEntry)
    exact Reaches.down (List.mem_cons_self _ _)
      (by decide : "inner" ∈ moduleNames exCtx "child.tf")
      (rfl : findModuleResolved exDefs "child.tf" "inner" = some (some ["grand.tf"]))
      (Reaches.here (List.mem_cons_self _ _))
  · exact h.2.1 (List.mem_cons_self _ _)
      (rfl : getModuleEntry exCtx "child.tf" "inner" = some exEntry)

/-- C8: if the module resolved-paths relation of the run is acyclic in
the strong sense that it admits a ranking function (`rank` strictly
decreases along every `childRel` edge — this is the depth of module
nesting below a file), then `push_skipped_checks_down` terminates: any
fuel exceeding the rank of every starting path suffices, i.e. the
fuelled embedding never reports `fuelOut`, and the recursion depth is
bounded by the nesting depth. -/
theorem C8_push_skipped_checks_down_terminates :
    ∀ (defs : Definitions) (ctx : DefinitionContext)
      (sk : List SkipDirective) (paths : List String) (fuel : Nat)
      (rank : String → Nat),
      (∀ g g', childRel defs ctx g g' → rank g' < rank g) →
      (∀ f ∈ paths, rank f < fuel) →
      (push_skipped_checks_down defs fuel sk paths ctx).2 ≠ .fuelOut :=
  fun defs ctx sk paths fuel rank h1 h2 =>
    push_downNF defs rank fuel sk paths ctx h1 h2

theorem C8_push_skipped_checks_down_terminates_witness :
    (push_skipped_checks_down exDefs 2 exSk ["child.tf"] exCtx).2
      ≠ PushResult.fuelOut := by
  have halook : ∀ g, alook exCtx g =
      if "child.tf" = g then some exChildFc
      else if "grand.tf" = g then some exGrandFc else none :=
    fun g => rfl
  refine C8_push_skipped_checks_down_terminates exDefs exCtx exSk ["child.tf"] 2
    (fun g => if g = "child.tf" then 1 else 0) ?_ ?_
  · intro g g' hcr
    obtain ⟨name, o, hn, ho, hf'⟩ := hcr
    unfold moduleNames at hn
    rw [halook g] at hn
    by_cases hg : "child.tf" = g
    · rw [if_pos hg] at hn
      simp only at hn
      have hname : name = "inner" := by
        have h0 : fileModuleNames exChildFc = ["inner"] := by decide
        rw [h0] at hn
        simpa using hn
      subst hname
      subst hg
      have h1 : findModuleResolved exDefs "child.tf" "inner"
          = some (some ["grand.tf"]) := rfl
      have h2 : o = some ["grand.tf"] := Option.some.inj (ho.symm.trans h1)
      subst h2
      have h3 : g' = "grand.tf" := by simpa using hf'
      subst h3
      decide
    · rw [if_neg hg] at hn
      by_cases hg2 : "grand.tf" = g
      · rw [if_pos hg2] at hn
        simp only at hn
        have h0 : fileModuleNames exGrandFc = [] := by decide
        rw [h0] at hn
        exact absurd hn (List.not_mem_nil _)
      · rw [if_neg hg2] at hn
        simp at hn
  · intro f hf
    have h0 : f = "child.tf" := by simpa using hf
    subst h0
    decide

/-! ## C1: skip post-processing of graph-check results -/

/-- The result enum of a check (`checkov.common.models.enums.CheckResult`
as used by the runner). -/
inductive CheckResult where
  | PASSED
  | FAILED
  | SKIPPED
deriving DecidableEq, Repr

/-- The fields of a graph `check_result` dict touched by the runner's
skip post-processing. -/
structure GraphCheckResult where
  result : CheckResult
  suppress_comment : Option String
deriving DecidableEq, Repr

/-- Lines 259–263 of `get_graph_checks_report`: iterate the entity
context's `skipped_checks`, and on the first directive whose `id` equals
the check id, set the (copied) result to SKIPPED with the directive's
suppress comment and `break`; otherwise leave the result unchanged. -/
def graph_check_apply_skips (check_id : String)
    (skipped_checks : List SkipDirective) (r : GraphCheckResult) :
    GraphCheckResult :=
  match skipped_checks.find? (fun s => s.id == check_id) with
  | some s => { r with result := .SKIPPED, suppress_comment := s.suppress_comment }
  | none => r

/-- C1 counterexample: a relational check result computed as PASSED whose
entity has a matching skip directive is changed to SKIPPED by the
post-processing of `get_graph_checks_report` — the code never inspects
the computed result before overwriting it, so the claim that a PASSED
result is never changed is false. -/
theorem C1_counterexample :
    ({ result := .PASSED, suppress_comment := none } : GraphCheckResult).result
        = CheckResult.PASSED ∧
    ({ id := "CKV_AWS_1", suppress_comment := some "skip" } : SkipDirective).id
        = "CKV_AWS_1" ∧
    (graph_check_apply_skips "CKV_AWS_1"
        [{ id := "CKV_AWS_1", suppress_comment := some "skip" }]
        { result := .PASSED, suppress_comment := none }).result
      = CheckResult.SKIPPED := by
  decide

/-- C1 amended: in the graph-check skip post-processing, a skip
directive matching the check id downgrades the result to SKIPPED
regardless of the computed result (PASSED and FAILED alike), and a skip
never upgrades anything to PASSED or FAILED; when no directive matches,
the result is returned unchanged. -/
theorem C1_graph_skip_postprocess :
    ∀ (check_id : String) (sks : List SkipDirective) (r : GraphCheckResult),
      ((∃ s ∈ sks, s.id = check_id) →
        (graph_check_apply_skips check_id sks r).result = .SKIPPED) ∧
      ((∀ s ∈ sks, s.id ≠ check_id) →
        graph_check_apply_skips check_id sks r = r) := by
  intro check_id sks r
  constructor
  · intro hex
    unfold graph_check_apply_skips
    cases hf : sks.find? (fun s => s.id == check_id) with
    | some s => rfl
    | none =>
      obtain ⟨s, hs, hid⟩ := hex
      have := List.find?_eq_none.mp hf s hs
      simp [hid] at this
  · intro hall
    unfold graph_check_apply_skips
    cases hf : sks.find? (fun s => s.id == check_id) with
    | some s =>
      have hmem := List.mem_of_find?_eq_some hf
      have hpred := List.find?_some hf
      simp only [beq_iff_eq] at hpred
      exact absurd hpred (hall s hmem)
    | none => rfl

theorem C1_graph_skip_postprocess_witness :
    (graph_check_apply_skips "CKV_AWS_1"
        [{ id := "CKV_AWS_1", suppress_comment := some "c" }]
        { result := .FAILED, suppress_comment := none }).result
      = CheckResult.SKIPPED :=
  (C1_graph_skip_postprocess "CKV_AWS_1"
      [{ id := "CKV_AWS_1", suppress_comment := some "c" }]
      { result := .FAILED, suppress_comment := none }).1
    ⟨_, List.mem_cons_self _ _, rfl⟩

/-- Python `s.split('.')` (single-character separator form), implemented
structurally over the character list so that it evaluates by reduction. -/
def splitOnChar (c : Char) : List Char → List (List Char)
  | [] => [[]]
  | x :: xs =>
    if x = c then [] :: splitOnChar c xs
    else
      match splitOnChar c xs with
      | [] => [[x]]
      | h :: t => (x :: h) :: t

/-- Python `s.split('.')` on strings. -/
def strSplitDot (s : String) : List String :=
  (splitOnChar '.' s.toList).map fun l => String.mk l

/-! ## C10: `get_entity_context_and_evaluations` error handling -/

/-- Outcome of indexing a Python mapping-like container: a value, a
`KeyError`, or a `StopIteration` (the only exception the function's
`try` guards). -/
inductive PyLookup (α : Type) where
  | val (a : α)
  | keyError
  | stopIteration

/-- The untyped view of one file's context tree: nested string-keyed
dicts with context-entry leaves, as walked by
`get_entity_context_and_evaluations`. -/
inductive CtxTree where
  | leaf (e : ContextEntry)
  | node (children : List (String × CtxTree))

/-- The walk `for k in entity_context_path: if k in entity_context:
entity_context = entity_context[k] else: return None`.  A key applied to
a leaf is treated as missing (entry field names are not context keys). -/
def treeWalk : CtxTree → List String → Option CtxTree
  | t, [] => some t
  | .leaf _, _ :: _ => none
  | .node cs, k :: ks =>
    match alook cs k with
    | none => none
    | some t => treeWalk t ks

/-- Result of `get_entity_context_and_evaluations`: a found context (with
`definition_path` recorded on it), `None` for a missing inner key, `{}`
for a caught `StopIteration`, or an uncaught `KeyError` escaping to the
caller. -/
inductive GECOutcome where
  | found (t : CtxTree) (definition_path : List String)
  | noneMissing
  | emptyDict
  | uncaughtKeyError

/-- The method `Runner.get_entity_context_and_evaluations` (lines 328–352), for the
default configuration (no module dependency rewrite, definition keys
disabled): split the block name on dots, walk
`[block_type] + definition_path` inside `self.context[full_file_path]`;
only `StopIteration` is caught (returning `{}`), a missing inner key
returns `None`, and indexing `self.context` itself propagates
`KeyError`. -/
def get_entity_context_and_evaluations
    (contextIndex : String → PyLookup CtxTree)
    (block_type : String) (block_name : String) (full_file_path : String) :
    GECOutcome :=
  let definition_path := strSplitDot block_name
  let entity_context_path := block_type :: definition_path
  match contextIndex full_file_path with
  | .keyError => .uncaughtKeyError
  | .stopIteration => .emptyDict
  | .val t =>
    match treeWalk t entity_context_path with
    | none => .noneMissing
    | some ec => .found ec definition_path

/-- C10: a missing inner key along the entity's context path yields
`None`; a `StopIteration` while indexing yields an empty mapping; a file
path absent from the context index (raising `KeyError`) is not guarded
and the exception propagates to the caller. -/
theorem C10_get_entity_context_error_handling :
    ∀ (contextIndex : String → PyLookup CtxTree)
      (block_type block_name full_file_path : String),
      (∀ t, contextIndex full_file_path = .val t →
        treeWalk t (block_type :: strSplitDot block_name) = none →
        get_entity_context_and_evaluations contextIndex block_type block_name
          full_file_path = .noneMissing) ∧
      (contextIndex full_file_path = .stopIteration →
        get_entity_context_and_evaluations contextIndex block_type block_name
          full_file_path = .emptyDict) ∧
      (contextIndex full_file_path = .keyError →
        get_entity_context_and_evaluations contextIndex block_type block_name
          full_file_path = .uncaughtKeyError) := by
  intro contextIndex block_type block_name full_file_path
  refine ⟨?_, ?_, ?_⟩
  · intro t hval hwalk
    unfold get_entity_context_and_evaluations
    rw [hval]
    simp only [hwalk]
  · intro hstop
    unfold get_entity_context_and_evaluations
    rw [hstop]
  · intro hkey
    unfold get_entity_context_and_evaluations
    rw [hkey]

/-- Concrete context index for the C10 witness: one real file, one file
whose indexing raises `StopIteration`, everything else a `KeyError`. -/
def exIndex : String → PyLookup CtxTree := fun p =>
  if p = "main.tf" then
    .val (.node [("resource", .node [("aws_s3_bucket", .node [("b", .leaf exEntry)])])])
  else if p = "stop.tf" then .stopIteration
  else .keyError

theorem C10_get_entity_context_error_handling_witness :
    get_entity_context_and_evaluations exIndex "resource" "aws_s3_bucket.missing"
        "main.tf" = .noneMissing ∧
    get_entity_context_and_evaluations exIndex "resource" "aws_s3_bucket.b"
        "stop.tf" = .emptyDict ∧
    get_entity_context_and_evaluations exIndex "resource" "aws_s3_bucket.b"
        "other.tf" = .uncaughtKeyError := by
  refine ⟨?_, ?_, ?_⟩
  · exact (C10_get_entity_context_error_handling exIndex "resource"
      "aws_s3_bucket.missing" "main.tf").1 _ rfl rfl
  · exact (C10_get_entity_context_error_handling exIndex "resource"
      "aws_s3_bucket.b" "stop.tf").2.1 rfl
  · exact (C10_get_entity_context_error_handling exIndex "resource"
      "aws_s3_bucket.b" "other.tf").2.2 rfl

/-! ## C5/C6: the legacy referrer cache (`_find_id_for_referrer`) -/

/-- The runner's mutable referrer state: `self.referrer_cache`,
`self.non_referred_cache` (a set, modelled as a membership list) and
`self.definitions_with_modules`. -/
structure RefState where
  referrer_cache : List (String × String)
  non_referred_cache : List String
  definitions_with_modules : List (String × FileDef)
deriving DecidableEq, Repr

/-- The method `Runner._prepare_definitions_with_modules`: keep, in definition
order, every file whose content has a `"module"` key with at least one
module dict entry carrying a `RESOLVED_MODULE_ENTRY_NAME` entry. -/
def prepare_definitions_with_modules (defs : Definitions) :
    List (String × FileDef) :=
  defs.filter fun p =>
    match p.2.module_blocks with
    | none => false
    | some dicts => dicts.any fun d => d.any fun q => q.2.isSome

theorem prepare_module_blocks_isSome (defs : Definitions) :
    ∀ p ∈ prepare_definitions_with_modules defs, p.2.module_blocks.isSome := by
  intro p hp
  have hcond := List.of_mem_filter hp
  cases h : p.2.module_blocks with
  | none => rw [h] at hcond; simp at hcond
  | some _ => rfl

/-- Inner search of `_find_id_for_referrer` over the module dicts of one
file: first module name whose `RESOLVED_MODULE_ENTRY_NAME` entry exists
and contains the path. -/
def searchModuleDicts (p : String) : List ModuleDict → Option String
  | [] => none
  | d :: rest =>
    match d.findSome? (fun q =>
        match q.2 with
        | some paths => if p ∈ paths then some q.1 else none
        | none => none) with
    | some n => some n
    | none => searchModuleDicts p rest

/-- Linear scan of `definitions_with_modules` in insertion order.  An
entry's `"module"` key is present by construction
(`prepare_module_blocks_isSome`); `getD []` is the non-raising read. -/
def searchReferrer (p : String) : List (String × FileDef) → Option String
  | [] => none
  | (_, fd) :: rest =>
    match searchModuleDicts p (fd.module_blocks.getD []) with
    | some n => some n
    | none => searchReferrer p rest

/-- Tail of `_find_id_for_referrer` after the positive-cache test:
negative cache, lazy one-time index build, linear search, and caching of
the outcome. -/
def find_id_go (defs : Definitions) (st : RefState) (p : String) :
    Option String × RefState :=
  if p ∈ st.non_referred_cache then (none, st)
  else
    let dwm := if st.definitions_with_modules.isEmpty
               then prepare_definitions_with_modules defs
               else st.definitions_with_modules
    match searchReferrer p dwm with
    | some name =>
      (some ("module." ++ name),
       { st with definitions_with_modules := dwm,
                 referrer_cache := ains st.referrer_cache p ("module." ++ name) })
    | none =>
      (none,
       { st with definitions_with_modules := dwm,
                 non_referred_cache := st.non_referred_cache ++ [p] })

/-- The method `Runner._find_id_for_referrer`.  The positive-cache test is Python
truthiness (`if cached_referrer:`), so a cached empty string falls
through exactly as the source does. -/
def find_id_for_referrer (defs : Definitions) (st : RefState) (p : String) :
    Option String × RefState :=
  match alook st.referrer_cache p with
  | some r => if r = "" then find_id_go defs st p else (some r, st)
  | none => find_id_go defs st p

/-- Modelled on the spec's procedure (a)–(d) for the legacy resolver,
word for word: (a) return the cached referrer when the path is in the
positive cache; (b) return `None` when it is in the negative cache;
(c) build the definitions-with-modules index once, only if it is empty,
from files containing module blocks with resolved entries; (d) linearly
search that index, on success cache and return `module.<localName>`,
on failure record the negative result and return `None`. -/
def findIdForReferrerSpec (defs : Definitions) (st : RefState) (p : String) :
    Option String × RefState :=
  match alook st.referrer_cache p with
  | some r => (some r, st)
  | none =>
    if p ∈ st.non_referred_cache then (none, st)
    else
      let dwm := if st.definitions_with_modules.isEmpty
                 then prepare_definitions_with_modules defs
                 else st.definitions_with_modules
      match searchReferrer p dwm with
      | some name =>
        (some ("module." ++ name),
         { st with definitions_with_modules := dwm,
                   referrer_cache := ains st.referrer_cache p ("module." ++ name) })
      | none =>
        (none,
         { st with definitions_with_modules := dwm,
                   non_referred_cache := st.non_referred_cache ++ [p] })

/-- C5: `_find_id_for_referrer` follows exactly the spec's procedure.
The two definitions differ only in the positive-cache test (Python
truthiness versus presence); under the invariant that cached referrers
are never the empty string — every value the function stores is
`"module." ++ name` — they agree on every input. -/
theorem C5_find_id_for_referrer_follows_procedure :
    ∀ (defs : Definitions) (st : RefState) (p : String),
      (∀ q ∈ st.referrer_cache, q.2 ≠ "") →
      find_id_for_referrer defs st p = findIdForReferrerSpec defs st p := by
  intro defs st p hwf
  unfold find_id_for_referrer findIdForReferrerSpec find_id_go
  cases hc : alook st.referrer_cache p with
  | none => rfl
  | some r =>
    dsimp only
    have hne : r ≠ "" := hwf (p, r) (alook_mem hc)
    rw [if_neg hne]

/-- The fresh per-run referrer state (all caches empty). -/
def emptyRefState : RefState :=
  { referrer_cache := [], non_referred_cache := [], definitions_with_modules := [] }

theorem C5_find_id_for_referrer_follows_procedure_witness :
    find_id_for_referrer exDefs emptyRefState "grand.tf"
      = findIdForReferrerSpec exDefs emptyRefState "grand.tf" :=
  C5_find_id_for_referrer_follows_procedure exDefs emptyRefState "grand.tf"
    (by intro q hq; exact absurd hq (List.not_mem_nil _))

theorem alook_ains_self {β : Type} (v : β) (k : String) :
    ∀ l, alook (ains l k v) k = some v
  | [] => by
    unfold ains alook
    rw [if_pos rfl]
  | q :: t => by
    unfold ains
    by_cases hk : q.1 = k
    · rw [if_pos hk]
      unfold alook
      rw [if_pos rfl]
    · rw [if_neg hk]
      unfold alook
      rw [if_neg hk]
      exact alook_ains_self v k t

theorem module_dot_ne_empty (s : String) : ("module." ++ s) ≠ "" := by
  intro h
  have hlen := congrArg String.length h
  rw [String.length_append] at hlen
  have h7 : "module.".length = 7 := rfl
  have h0 : "".length = 0 := rfl
  rw [h7, h0] at hlen
  omega

theorem find_id_cached_pos (defs : Definitions) {s : RefState} {p r : String}
    (hc : alook s.referrer_cache p = some r) (hr : r ≠ "") :
    find_id_for_referrer defs s p = (some r, s) := by
  unfold find_id_for_referrer
  rw [hc]
  dsimp only
  rw [if_neg hr]

theorem find_id_cached_neg (defs : Definitions) {s : RefState} {p : String}
    (hm : p ∈ s.non_referred_cache)
    (hc : alook s.referrer_cache p = none ∨ alook s.referrer_cache p = some "") :
    find_id_for_referrer defs s p = (none, s) := by
  unfold find_id_for_referrer
  rcases hc with hc | hc
  · rw [hc]
    unfold find_id_go
    rw [if_pos hm]
  · rw [hc]
    dsimp only
    rw [if_pos rfl]
    unfold find_id_go
    rw [if_pos hm]

theorem find_id_post (defs : Definitions) (st : RefState) (p : String) :
    (∃ r, (find_id_for_referrer defs st p).1 = some r ∧ r ≠ "" ∧
      alook (find_id_for_referrer defs st p).2.referrer_cache p = some r) ∨
    ((find_id_for_referrer defs st p).1 = none ∧
      p ∈ (find_id_for_referrer defs st p).2.non_referred_cache ∧
      (alook (find_id_for_referrer defs st p).2.referrer_cache p = none ∨
        alook (find_id_for_referrer defs st p).2.referrer_cache p = some "")) := by
  have hgo : (alook st.referrer_cache p = none ∨
      alook st.referrer_cache p = some "") →
      (∃ r, (find_id_go defs st p).1 = some r ∧ r ≠ "" ∧
        alook (find_id_go defs st p).2.referrer_cache p = some r) ∨
      ((find_id_go defs st p).1 = none ∧
        p ∈ (find_id_go defs st p).2.non_referred_cache ∧
        (alook (find_id_go defs st p).2.referrer_cache p = none ∨
          alook (find_id_go defs st p).2.referrer_cache p = some "")) := by
    intro hc
    unfold find_id_go
    by_cases hneg : p ∈ st.non_referred_cache
    · rw [if_pos hneg]
      exact Or.inr ⟨rfl, hneg, hc⟩
    · rw [if_neg hneg]
      dsimp only
      cases hsearch : searchReferrer p
          (if st.definitions_with_modules.isEmpty
           then prepare_definitions_with_modules defs
           else st.definitions_with_modules) with
      | some name =>
        dsimp only
        exact Or.inl ⟨"module." ++ name, rfl, module_dot_ne_empty name,
          alook_ains_self _ _ _⟩
      | none =>
        dsimp only
        exact Or.inr ⟨rfl,
          List.mem_append_right _ (List.mem_singleton.mpr rfl), hc⟩
  unfold find_id_for_referrer
  cases hc : alook st.referrer_cache p with
  | none => exact hgo (Or.inl hc)
  | some r =>
    dsimp only
    by_cases hr : r = ""
    · rw [if_pos hr]
      exact hgo (Or.inr (hr ▸ hc))
    · rw [if_neg hr]
      exact Or.inl ⟨r, rfl, hr, hc⟩

/-- C6: referrer lookup is idempotent within a run: a second call with
the same path returns the same value as the first and leaves the state
exactly as the first call left it — it is served from the positive or
negative cache without re-scanning or rebuilding the
definitions-with-modules index (the state equality rules out any new
cache entry or index rebuild). -/
theorem C6_find_id_for_referrer_idempotent :
    ∀ (defs : Definitions) (st : RefState) (p : String),
      (find_id_for_referrer defs (find_id_for_referrer defs st p).2 p).1
        = (find_id_for_referrer defs st p).1 ∧
      (find_id_for_referrer defs (find_id_for_referrer defs st p).2 p).2
        = (find_id_for_referrer defs st p).2 ∧
      ((∃ r, alook (find_id_for_referrer defs st p).2.referrer_cache p
          = some r ∧ r ≠ "") ∨
        p ∈ (find_id_for_referrer defs st p).2.non_referred_cache) := by
  intro defs st p
  rcases find_id_post defs st p with ⟨r, h1, h2, h3⟩ | ⟨h1, h2, h3⟩
  · have hsecond := find_id_cached_pos defs h3 h2
    rw [hsecond, h1]
    exact ⟨rfl, rfl, Or.inl ⟨r, h3, h2⟩⟩
  · have hsecond := find_id_cached_neg defs h2 h3
    rw [hsecond, h1]
    exact ⟨rfl, rfl, Or.inr h2⟩

/-! ## Check dispatch (`run_block`, lines 407–565)

The dispatcher's external collaborators — the `parser_utils` path
helpers, the registry `scan`, secret redaction, tag extraction and the
breadcrumb map — are supplied as parameters; the control flow below is
the runner's own.  `self.evaluations_context` is empty in the modelled
configuration, so `evaluations` is always absent. -/

/-- One parsed block as the dispatcher sees it, through
`context_parser.get_entity_context_path` and
`registry.extract_entity_details`: its context path, its type and name,
and the `__address__` attribute of its config
(`CustomAttributes.TF_RESOURCE_ADDRESS`, absent unless the graph
computed it). -/
structure Entity where
  definition_path : List String
  entity_type : String
  entity_name : String
  tf_resource_address : Option String
deriving DecidableEq, Repr

/-- The identity of one registered check, as returned by
`registry.scan`. -/
structure CheckMeta where
  id : String
deriving DecidableEq, Repr

/-- External path helpers from `checkov.common.util.parser_utils`:
`get_module_from_full_path` (truthy module component of a nested
definition key), `get_module_name`, `get_abs_path`,
`strip_terraform_module_referrer` (absolute path and optional referrer)
and `os.path.relpath`. -/
structure PathOps where
  get_module_from_full_path : String → Option String
  get_module_name : String → Option String
  get_abs_path : String → String
  strip_module_referrer : String → String × Option String
  relpath : String → String → String

/-- External check-execution collaborators: `registry.scan` (results in
registry order), `omit_secret_value_from_checks` (output-only redaction
of the code lines), `get_resource_tags`, the `self.breadcrumbs` lookup
keyed by file path and entity key, and the `CHECKOV_CREATE_GRAPH`
switch. -/
structure ScanDeps where
  scan : String → Entity → Option (List SkipDirective) →
    List (CheckMeta × CheckResult)
  censor : CheckMeta → CheckResult → List (Nat × String) → List (Nat × String)
  resource_tags : String → Entity → Option (List (String × String))
  breadcrumb : String → Option String → Option Unit
  create_graph : Bool

/-- A dispatcher `Record`, reduced to the fields the runner itself
computes. -/
structure Record where
  check_id : String
  check_result : CheckResult
  code_block : Option (List (Nat × String))
  file_path : String
  file_line_range : Option (Option Nat × Option Nat)
  resource : Option String
  evaluations : Option Unit
  file_abs_path : String
  entity_tags : Option (List (String × String))
  caller_file_path : Option String
  caller_file_line_range : Option (Option Nat × Option Nat)
  breadcrumb : Option Unit
  definition_context_file_path : String
deriving DecidableEq, Repr

/-- The record `checkov.common.output.extra_resource.ExtraResource`. -/
structure ExtraResource where
  file_abs_path : String
  file_path : String
  resource : Option String
deriving DecidableEq, Repr

/-- Python truthiness on an optional string (`if s:`): `None` and the
empty string are falsy. -/
def optTruthy : Option String → Option String
  | some s => if s = "" then none else some s
  | none => none

/-- Python `".".join(l)`. -/
def joinDots : List String → String
  | [] => ""
  | [x] => x
  | x :: y :: t => x ++ "." ++ joinDots (y :: t)

/-- Python `l.index(a)` as an option (`ValueError` ↦ `none`). -/
def idxOf? (a : String) : List String → Option Nat
  | [] => none
  | x :: t => if x = a then some 0 else (idxOf? a t).map (· + 1)

/-- Index of the last occurrence of a character, Python `s.rindex(c)`
(`ValueError` ↦ `none`). -/
def lastIdxOf (c : Char) : List Char → Option Nat
  | [] => none
  | x :: t =>
    match lastIdxOf c t with
    | some i => some (i + 1)
    | none => if x = c then some 0 else none

/-- Python `s[:n]` by characters. -/
def strTake (s : String) (n : Nat) : String := String.mk (s.toList.take n)

/-- Python `s.rindex(c)` on strings. -/
def strRIndex (s : String) (c : Char) : Option Nat := lastIdxOf c s.toList

/-- The walk `data_structures_utils.get_inner_dict(definition_context[path],
entity_context_path)` through the typed context: a two-key path walks a
module-shaped layer, a three-key path a resource-shaped layer; a missing
key anywhere is the caught `KeyError`. -/
def get_inner_entry (fc : FileContext) : List String → Option ContextEntry
  | [bt, n] =>
    (alook fc bt).bind fun cfgs =>
      match cfgs with
      | .moduleConfigs es => alook es n
      | .resourceConfigs _ => none
  | [bt, rt, rn] =>
    (alook fc bt).bind fun cfgs =>
      match cfgs with
      | .resourceConfigs es => (alook es rt).bind fun ns => alook ns rn
      | .moduleConfigs _ => none
  | _ => none

/-- Result of the caller-resolution prologue of the `run_block` loop
body (lines 431–473): proceed with the computed entity id and caller
fields, skip the entity (`continue`), or raise out of `run_block`. -/
inductive CallerRes where
  | proceed (entity_id : Option String) (caller_file_path : Option String)
      (caller_file_line_range : Option (Option Nat × Option Nat))
      (ref : RefState)
  | skip (ref : RefState)
  | crash (ref : RefState)
deriving Repr

/-- Lines 431–473 of `run_block`: under nested modules, read the
resource address, derive the module name (from `get_module_name`, else
from the address with `ValueError` ↦ `continue`), and fetch the caller
context — `definition_context[module_full_path]` raises `KeyError`
uncaught, a missing module entry is `continue`.  Under the legacy
strategy, consult the referrer cache and derive the caller
fields, with the caller-context walk guarded by `try/except KeyError`. -/
def resolveCaller (ops : PathOps) (defs : Definitions)
    (enable_nested_modules : Bool) (ctx : DefinitionContext) (ref : RefState)
    (full_file_path root_folder : String) (module_referrer : Option String)
    (e : Entity) : CallerRes :=
  let entity_id0 := joinDots e.definition_path
  if enable_nested_modules then
    let entity_id := e.tf_resource_address
    match optTruthy (ops.get_module_from_full_path full_file_path) with
    | none => .proceed entity_id none none ref
    | some module_full_path =>
      let mname : Option (Option String) :=
        match optTruthy (ops.get_module_name full_file_path) with
        | some n => some (some n)
        | none =>
          match entity_id with
          | none => none
          | some eid =>
            let fdp := strSplitDot eid
            match idxOf? "module" (fdp.reverse.drop 1) with
            | none => some none
            | some i => some (some (fdp.getD (fdp.length - 1 - i) ""))
      match mname with
      | none => .crash ref
      | some none => .skip ref
      | some (some module_name) =>
        match alook ctx module_full_path with
        | none => .crash ref
        | some fc =>
          match
            (match alook fc "module" with
             | some (.moduleConfigs es) => alook es module_name
             | _ => none) with
          | none => .skip ref
          | some cc =>
            .proceed entity_id
              (some ("/" ++ ops.relpath (ops.get_abs_path module_full_path)
                root_folder))
              (some (cc.start_line, cc.end_line)) ref
  else
    match module_referrer with
    | none => .proceed (some entity_id0) none none ref
    | some mref =>
      match find_id_for_referrer defs ref full_file_path with
      | (rid?, ref') =>
        match optTruthy rid? with
        | none => .proceed (some entity_id0) none none ref'
        | some rid =>
          match strRIndex mref '#' with
          | none => .crash ref'
          | some i =>
            let abs_caller := strTake mref i
            let caller := (alook ctx abs_caller).bind fun fc =>
              get_inner_entry fc (strSplitDot rid)
            .proceed (some (rid ++ "." ++ entity_id0))
              (some ("/" ++ ops.relpath abs_caller root_folder))
              (caller.map fun cc => (cc.start_line, cc.end_line)) ref'

/-- The runner's mutable state threaded through dispatch: the context
index (mutated by the legacy skip push) and the referrer caches. -/
structure RunnerState where
  ctx : DefinitionContext
  ref : RefState
deriving DecidableEq, Repr

/-- Outcome of one loop-body iteration of `run_block`. -/
inductive EntityStatus where
  | ok
  | skippedEntity
  | crashed
deriving DecidableEq, Repr

/-- The body of `run_block`'s `for entity in entities` loop
(lines 424–565) for one entity: caller resolution, entity-context
lookup (degrading to absent fields on `KeyError`), the legacy
module-skip push, `registry.scan`, and Record / extra-resource
emission. -/
def processEntity (ops : PathOps) (deps : ScanDeps) (defs : Definitions)
    (enable_nested_modules : Bool) (st : RunnerState)
    (full_file_path root_folder scanned_file block_type : String)
    (module_referrer : Option String) (e : Entity) :
    RunnerState × EntityStatus × List Record × List ExtraResource :=
  match resolveCaller ops defs enable_nested_modules st.ctx st.ref
      full_file_path root_folder module_referrer e with
  | .crash ref' => (⟨st.ctx, ref'⟩, .crashed, [], [])
  | .skip ref' => (⟨st.ctx, ref'⟩, .skippedEntity, [], [])
  | .proceed entity_id caller_file_path caller_file_line_range ref' =>
    let entity_context_path := block_type :: e.definition_path
    let context_path := full_file_path
    let entry? := (alook st.ctx context_path).bind fun fc =>
      get_inner_entry fc entity_context_path
    let entity_lines_range := entry?.map fun ec => (ec.start_line, ec.end_line)
    let entity_code_lines := entry?.map ContextEntry.code_lines
    let skipped_checks := entry?.map ContextEntry.skipped_checks
    match
      (if ¬ enable_nested_modules ∧ block_type = "module" then
        push_skipped_checks_down_old
          (fun p => (ops.strip_module_referrer p).2)
          st.ctx context_path skipped_checks
      else (st.ctx, true)) with
    | (_, false) => (⟨st.ctx, ref'⟩, .crashed, [], [])
    | (ctx2, true) =>
      let results := deps.scan scanned_file e skipped_checks
      let absolute_scanned_file_path := (ops.strip_module_referrer full_file_path).1
      let tags := deps.resource_tags e.entity_type e
      if results.isEmpty then
        (⟨ctx2, ref'⟩, .ok, [],
         if block_type = "resource" then
           [{ file_abs_path := absolute_scanned_file_path,
              file_path := scanned_file, resource := entity_id }]
         else [])
      else
        (⟨ctx2, ref'⟩, .ok,
         results.map fun pr =>
           { check_id := pr.1.id,
             check_result := pr.2,
             code_block := entity_code_lines.map (deps.censor pr.1 pr.2),
             file_path := scanned_file,
             file_line_range := entity_lines_range,
             resource := entity_id,
             evaluations := none,
             file_abs_path := absolute_scanned_file_path,
             entity_tags := tags,
             caller_file_path := caller_file_path,
             caller_file_line_range := caller_file_line_range,
             breadcrumb :=
               if deps.create_graph then
                 deps.breadcrumb scanned_file
                   (if enable_nested_modules then entity_id
                    else some (e.entity_type ++ "." ++ e.entity_name))
               else none,
             definition_context_file_path := full_file_path },
         [])

/-- The method `Runner.run_block`: iterate the entities, accumulating records and
extra resources; an uncaught exception in the loop body aborts the whole
call (final flag `false`). -/
def run_block (ops : PathOps) (deps : ScanDeps) (defs : Definitions)
    (enable_nested_modules : Bool)
    (full_file_path root_folder scanned_file block_type : String)
    (module_referrer : Option String) :
    List Entity → RunnerState →
    RunnerState × List Record × List ExtraResource × Bool
  | [], st => (st, [], [], true)
  | e :: rest, st =>
    match processEntity ops deps defs enable_nested_modules st full_file_path
        root_folder scanned_file block_type module_referrer e with
    | (st1, .crashed, recs, extras) => (st1, recs, extras, false)
    | (st1, _, recs, extras) =>
      match run_block ops deps defs enable_nested_modules full_file_path
          root_folder scanned_file block_type module_referrer rest st1 with
      | (st2, recs2, extras2, okFlag) =>
        (st2, recs ++ recs2, extras ++ extras2, okFlag)

/-- One file's parsed content as the dispatcher iterates it: block-type
name to the entities of that type. -/
abbrev BlockEntities := List (String × List Entity)

/-- The method `Runner.run_all_blocks` for one file: `set(definition.keys()) &
CHECK_BLOCK_TYPES` iterated in the process's fixed set-iteration order
(`setOrder`), dispatching `run_block` per block type.  An empty
definition is skipped. -/
def run_all_blocks (ops : PathOps) (deps : ScanDeps) (defs : Definitions)
    (enable_nested_modules : Bool)
    (setOrder : List String → List String)
    (definition : BlockEntities)
    (full_file_path root_folder scanned_file : String)
    (module_referrer : Option String) (st : RunnerState) :
    RunnerState × List Record × List ExtraResource × Bool :=
  if definition.isEmpty then (st, [], [], true)
  else
    go (setOrder ((definition.map Prod.fst).filter
      (fun bt => bt ∈ CHECK_BLOCK_TYPES))) st
where
  go : List String → RunnerState →
      RunnerState × List Record × List ExtraResource × Bool
    | [], st => (st, [], [], true)
    | bt :: rest, st =>
      match run_block ops deps defs enable_nested_modules full_file_path
          root_folder scanned_file bt module_referrer
          ((alook definition bt).getD []) st with
      | (st1, recs, extras, false) => (st1, recs, extras, false)
      | (st1, recs, extras, true) =>
        match go rest st1 with
        | (st2, recs2, extras2, okFlag) =>
          (st2, recs ++ recs2, extras ++ extras2, okFlag)

/-- The method `Runner.push_skipped_checks_down_from_modules`: for each file's
module blocks, read the module's context skip list and resolved paths
and invoke `push_skipped_checks_down`.  An empty module dict (no name to
read) or a failing push aborts with `false`. -/
def push_skipped_checks_down_from_modules (defs : Definitions) (fuel : Nat) :
    List (String × FileDef) → DefinitionContext → DefinitionContext × Bool
  | [], ctx => (ctx, true)
  | (file, fd) :: rest, ctx =>
    match goFile file (fd.module_blocks.getD []) ctx with
    | (ctx1, true) => push_skipped_checks_down_from_modules defs fuel rest ctx1
    | r => r
where
  goFile (file : String) : List ModuleDict → DefinitionContext →
      DefinitionContext × Bool
    | [], ctx => (ctx, true)
    | md :: mds, ctx =>
      match md.head? with
      | none => (ctx, false)
      | some (name, _) =>
        let modEs :=
          match alook ctx file with
          | some fc =>
            match alook fc "module" with
            | some (.moduleConfigs es) => es
            | _ => []
          | none => []
        let skipped := ((alook modEs name).map
          ContextEntry.skipped_checks).getD []
        match alook md name with
        | none => (ctx, false)
        | some o =>
          match push_skipped_checks_down defs fuel skipped (o.getD []) ctx with
          | (ctx1, .ok) => goFile file mds ctx1
          | (ctx1, _) => (ctx1, false)

/-- The per-file loop of `check_tf_definition` (lines 371–384): compute
the scanned path and referrer per strategy and dispatch
`run_all_blocks`, threading state and concatenating the report in file
order. -/
def runFiles (ops : PathOps) (deps : ScanDeps) (defs : Definitions)
    (enable_nested_modules : Bool) (setOrder : List String → List String)
    (root_folder : String) :
    List (String × BlockEntities) → RunnerState →
    RunnerState × List Record × List ExtraResource × Bool
  | [], st => (st, [], [], true)
  | (full_file_path, definition) :: rest, st =>
    let absRef : String × Option String :=
      if enable_nested_modules then (ops.get_abs_path full_file_path, none)
      else ops.strip_module_referrer full_file_path
    let scanned_file := "/" ++ ops.relpath absRef.1 root_folder
    match run_all_blocks ops deps defs enable_nested_modules setOrder
        definition full_file_path root_folder scanned_file absRef.2 st with
    | (st1, recs, extras, false) => (st1, recs, extras, false)
    | (st1, recs, extras, true) =>
      match runFiles ops deps defs enable_nested_modules setOrder root_folder
          rest st1 with
      | (st2, recs2, extras2, okFlag) =>
        (st2, recs ++ recs2, extras ++ extras2, okFlag)

/-- The method `Runner.check_tf_definition` for an already-built context: push
skips down from modules (nested strategy), then scan every file's
blocks in definition order. -/
def check_tf_definition (ops : PathOps) (deps : ScanDeps) (defs : Definitions)
    (enable_nested_modules : Bool) (fuel : Nat)
    (setOrder : List String → List String) (root_folder : String)
    (dispatch : List (String × BlockEntities)) (ctx : DefinitionContext)
    (ref : RefState) :
    RunnerState × List Record × List ExtraResource × Bool :=
  match
    (if enable_nested_modules then
      push_skipped_checks_down_from_modules defs fuel defs ctx
    else (ctx, true)) with
  | (ctx1, false) => (⟨ctx1, ref⟩, [], [], false)
  | (ctx1, true) =>
    runFiles ops deps defs enable_nested_modules setOrder root_folder dispatch
      ⟨ctx1, ref⟩

/-! ## C4/C7: per-block dispatch behaviour -/

/-- Modelled from the spec: a concrete instantiation of the
`parser_utils` path-helper interface for the scenario of a file
instantiated through `module "network"` declared in `main.tf` (the spec
encodes such file identities as `main.tf[module-chain#idx]`); all other
paths are plain files. -/
def exOps : PathOps :=
  { get_module_from_full_path := fun f =>
      if f = "m1/main.tf" then some "main.tf" else none,
    get_module_name := fun f =>
      if f = "m1/main.tf" then some "network" else none,
    get_abs_path := fun s => s,
    strip_module_referrer := fun s => (s, none),
    relpath := fun s _ => s }

/-- Concrete check collaborators: one registered check that fails on
every block, identity redaction, no tags, no breadcrumbs. -/
def exDeps : ScanDeps :=
  { scan := fun _ _ _ => [({ id := "CKV_AWS_1" }, CheckResult.FAILED)],
    censor := fun _ _ l => l,
    resource_tags := fun _ _ => none,
    breadcrumb := fun _ _ => none,
    create_graph := true }

/-- A context index that knows `main.tf` but has no context entry for
its `module "network"` call — the caller-context miss scenario. -/
def exCtxC4 : DefinitionContext := [("main.tf", [("module", .moduleConfigs [])])]

/-- The resource block inside the `network` module. -/
def exEntityC4 : Entity :=
  { definition_path := ["aws_s3_bucket", "b"], entity_type := "aws_s3_bucket",
    entity_name := "b",
    tf_resource_address := some "module.network.aws_s3_bucket.b" }

/-- C4 counterexample: a `resource` block iterated by `run_block` whose
module caller context is missing is dropped by the `continue` on line
450 — no Record is appended and nothing is added to `extra_resources`,
even though a registered check would have produced a result.  The claim
"never neither" is false as stated. -/
theorem C4_counterexample :
    (processEntity exOps exDeps [] true ⟨exCtxC4, emptyRefState⟩ "m1/main.tf"
        "/" "/m1/main.tf" "resource" none exEntityC4).2.1
      = EntityStatus.skippedEntity ∧
    (processEntity exOps exDeps [] true ⟨exCtxC4, emptyRefState⟩ "m1/main.tf"
        "/" "/m1/main.tf" "resource" none exEntityC4).2.2.1 = [] ∧
    (processEntity exOps exDeps [] true ⟨exCtxC4, emptyRefState⟩ "m1/main.tf"
        "/" "/m1/main.tf" "resource" none exEntityC4).2.2.2 = [] ∧
    exDeps.scan "/m1/main.tf" exEntityC4 none ≠ [] := by
  decide

/-- C4 amended: every `resource` block whose loop-body iteration in
`run_block` completes normally (is not skipped by the nested-module
`continue` paths and does not raise) either appends at least one Record
or is added to `extra_resources` — never neither. -/
theorem C4_run_block_no_silent_resource_loss :
    ∀ (ops : PathOps) (deps : ScanDeps) (defs : Definitions) (enb : Bool)
      (st : RunnerState) (ffp root sf : String) (mr : Option String)
      (e : Entity) (st' : RunnerState) (recs : List Record)
      (extras : List ExtraResource),
      processEntity ops deps defs enb st ffp root sf "resource" mr e
        = (st', .ok, recs, extras) →
      recs ≠ [] ∨ extras ≠ [] := by
  intro ops deps defs enb st ffp root sf mr e st' recs extras h
  unfold processEntity at h
  cases hres : resolveCaller ops defs enb st.ctx st.ref ffp root mr e with
  | crash ref' => simp [hres] at h
  | skip ref' => simp [hres] at h
  | proceed eid cfp cflr ref' =>
    simp only [hres] at h
    have hcond : ¬ (¬ enb ∧ ("resource" : String) = "module") := by simp
    rw [if_neg hcond] at h
    dsimp only at h
    by_cases hempty : (deps.scan sf e (((alook st.ctx ffp).bind fun fc =>
        get_inner_entry fc ("resource" :: e.definition_path)).map
        ContextEntry.skipped_checks)).isEmpty
    · rw [if_pos hempty] at h
      simp only [if_pos rfl, Prod.mk.injEq] at h
      obtain ⟨_, _, _, hextras⟩ := h
      subst hextras
      exact Or.inr (by simp)
    · rw [if_neg hempty] at h
      simp only [Prod.mk.injEq] at h
      obtain ⟨_, _, hrecs, _⟩ := h
      subst hrecs
      refine Or.inl ?_
      intro hnil
      rw [List.map_eq_nil_iff] at hnil
      rw [hnil] at hempty
      exact hempty rfl

theorem C4_run_block_no_silent_resource_loss_witness :
    (processEntity exOps exDeps [] true ⟨[], emptyRefState⟩ "plain.tf" "/"
        "/plain.tf" "resource" none exEntityC4).2.2.1 ≠ [] ∨
    (processEntity exOps exDeps [] true ⟨[], emptyRefState⟩ "plain.tf" "/"
        "/plain.tf" "resource" none exEntityC4).2.2.2 ≠ [] :=
  C4_run_block_no_silent_resource_loss exOps exDeps [] true
    ⟨[], emptyRefState⟩ "plain.tf" "/" "/plain.tf" none exEntityC4
    (processEntity exOps exDeps [] true ⟨[], emptyRefState⟩ "plain.tf" "/"
      "/plain.tf" "resource" none exEntityC4).1
    (processEntity exOps exDeps [] true ⟨[], emptyRefState⟩ "plain.tf" "/"
      "/plain.tf" "resource" none exEntityC4).2.2.1
    (processEntity exOps exDeps [] true ⟨[], emptyRefState⟩ "plain.tf" "/"
      "/plain.tf" "resource" none exEntityC4).2.2.2
    (by decide)

/-- The data block used by the C7 counterexample. -/
def exEntityC7 : Entity :=
  { definition_path := ["aws_ami", "ubuntu"], entity_type := "aws_ami",
    entity_name := "ubuntu",
    tf_resource_address := some "module.network.data.aws_ami.ubuntu" }

/-- C7 counterexample: a missing caller context does not merely degrade
enrichment — the `continue` on line 450 skips the block's check
execution entirely: the registry scan would return a result, yet no
Record is emitted for the block.  The claim that the three misses
"never abort the block's own check execution" is false as stated. -/
theorem C7_counterexample :
    (processEntity exOps exDeps [] true ⟨exCtxC4, emptyRefState⟩ "m1/main.tf"
        "/" "/m1/main.tf" "data" none exEntityC7).2.1
      = EntityStatus.skippedEntity ∧
    (processEntity exOps exDeps [] true ⟨exCtxC4, emptyRefState⟩ "m1/main.tf"
        "/" "/m1/main.tf" "data" none exEntityC7).2.2.1 = [] ∧
    exDeps.scan "/m1/main.tf" exEntityC7 none ≠ [] := by
  decide

/-- C7 amended: a context lookup miss on the entity's own context only
degrades the Record enrichment — the block's checks still run with an
absent skip list and one Record per scan result is emitted, with line
range and code lines absent (caller fields are whatever the caller
prologue produced); but a missing module-name resolution or a missing
caller context in nested mode makes the loop body `continue`, emitting
nothing for the block. -/
theorem C7_run_block_degradation :
    ∀ (ops : PathOps) (deps : ScanDeps) (defs : Definitions) (enb : Bool)
      (st : RunnerState) (ffp root sf bt : String) (mr : Option String)
      (e : Entity) (eid : Option String) (cfp : Option String)
      (cflr : Option (Option Nat × Option Nat)) (ref' : RefState),
      (resolveCaller ops defs enb st.ctx st.ref ffp root mr e
          = .proceed eid cfp cflr ref' →
        ((alook st.ctx ffp).bind fun fc =>
          get_inner_entry fc (bt :: e.definition_path)) = none →
        ∃ st' recs extras,
          processEntity ops deps defs enb st ffp root sf bt mr e
            = (st', .ok, recs, extras) ∧
          recs.length = (deps.scan sf e none).length ∧
          ∀ r ∈ recs, r.file_line_range = none ∧ r.code_block = none) ∧
      (resolveCaller ops defs enb st.ctx st.ref ffp root mr e = .skip ref' →
        processEntity ops deps defs enb st ffp root sf bt mr e
          = (⟨st.ctx, ref'⟩, .skippedEntity, [], [])) := by
  intro ops deps defs enb st ffp root sf bt mr e eid cfp cflr ref'
  constructor
  · intro hres hmiss
    unfold processEntity
    rw [hres]
    dsimp only
    rw [hmiss]
    have hpush :
        (if ¬ enb ∧ bt = "module" then
          push_skipped_checks_down_old
            (fun p => (ops.strip_module_referrer p).2) st.ctx ffp
            ((none : Option ContextEntry).map ContextEntry.skipped_checks)
        else (st.ctx, true)) = (st.ctx, true) := by
      by_cases hc : ¬ enb ∧ bt = "module"
      · rw [if_pos hc]
        rfl
      · rw [if_neg hc]
    rw [hpush]
    simp only [Option.map_none']
    by_cases hempty : (deps.scan sf e none).isEmpty
    · rw [if_pos hempty]
      refine ⟨_, _, _, rfl, ?_, ?_⟩
      · rw [List.isEmpty_iff.mp hempty]
        rfl
      · intro r hr
        exact absurd hr (List.not_mem_nil r)
    · rw [if_neg hempty]
      refine ⟨_, _, _, rfl, by rw [List.length_map], ?_⟩
      intro r hr
      obtain ⟨pr, _, hpr⟩ := List.mem_map.mp hr
      constructor
      · rw [← hpr]
      · rw [← hpr]
  · intro hres
    unfold processEntity
    rw [hres]

theorem C7_run_block_degradation_witness :
    ∃ st' recs extras,
      processEntity exOps exDeps [] true ⟨[], emptyRefState⟩ "plain.tf" "/"
          "/plain.tf" "resource" none exEntityC4
        = (st', .ok, recs, extras) ∧
      recs.length = (exDeps.scan "/plain.tf" exEntityC4 none).length ∧
      ∀ r ∈ recs, r.file_line_range = none ∧ r.code_block = none :=
  (C7_run_block_degradation exOps exDeps [] true ⟨[], emptyRefState⟩
      "plain.tf" "/" "/plain.tf" "resource" none exEntityC4
      exEntityC4.tf_resource_address none none emptyRefState).1
    rfl rfl

/-! ## C9: determinism and record ordering of the scan loop -/

/-- C9: the core is a pure function of its declared inputs — two
invocations of `check_tf_definition` on syntactically identical inputs
(same definitions, same context, same collaborator functions, same
process-fixed set-iteration order) produce identical results, record
content and ordering included; and the per-file loop is compositional in
file order: running a concatenation of file lists equals running the
first list and, if it completed, the second from the state the first
left behind, with records and extra resources concatenated in that
order — records are appended in the definitions' iteration order, files
outermost, then block types (in the fixed set order), then block
instances. -/
theorem C9_check_tf_definition_deterministic :
    ∀ (ops : PathOps) (deps : ScanDeps) (defs : Definitions) (enb : Bool)
      (fuel : Nat) (setOrder : List String → List String) (root : String)
      (d1 d2 : List (String × BlockEntities)) (ctx : DefinitionContext)
      (ref : RefState) (st : RunnerState),
      (d1 = d2 →
        check_tf_definition ops deps defs enb fuel setOrder root d1 ctx ref
          = check_tf_definition ops deps defs enb fuel setOrder root d2 ctx ref) ∧
      (runFiles ops deps defs enb setOrder root (d1 ++ d2) st
        = match runFiles ops deps defs enb setOrder root d1 st with
          | (st1, r1, x1, false) => (st1, r1, x1, false)
          | (st1, r1, x1, true) =>
            match runFiles ops deps defs enb setOrder root d2 st1 with
            | (st2, r2, x2, okFlag) => (st2, r1 ++ r2, x1 ++ x2, okFlag)) := by
  intro ops deps defs enb fuel setOrder root d1 d2 ctx ref st
  constructor
  · intro h
    rw [h]
  · induction d1 generalizing st with
    | nil =>
      simp [runFiles]
    | cons fd rest ih =>
      rcases fd with ⟨ffp, definition⟩
      simp only [List.cons_append, runFiles, List.append_eq]
      rcases hab : run_all_blocks ops deps defs enb setOrder definition ffp
          root ("/" ++ ops.relpath
            (if enb then (ops.get_abs_path ffp, (none : Option String))
             else ops.strip_module_referrer ffp).1 root)
          (if enb then (ops.get_abs_path ffp, (none : Option String))
           else ops.strip_module_referrer ffp).2 st
        with ⟨st1, recs, extras, okB⟩
      cases okB with
      | false => rfl
      | true =>
        dsimp only
        rw [ih st1]
        rcases hr1 : runFiles ops deps defs enb setOrder root rest st1
          with ⟨stA, rA, xA, okA⟩
        cases okA with
        | false => rfl
        | true =>
          dsimp only
          rcases hr2 : runFiles ops deps defs enb setOrder root d2 stA
            with ⟨stB, rB, xB, okC⟩
          simp [List.append_assoc]

theorem C9_check_tf_definition_deterministic_witness :
    check_tf_definition exOps exDeps exDefs true 2 (fun l => l) "/"
        [("child.tf", [("resource", [exEntityC4])])] exCtx emptyRefState
      = check_tf_definition exOps exDeps exDefs true 2 (fun l => l) "/"
        [("child.tf", [("resource", [exEntityC4])])] exCtx emptyRefState :=
  (C9_check_tf_definition_deterministic exOps exDeps exDefs true 2 (fun l => l)
      "/" [("child.tf", [("resource", [exEntityC4])])]
      [("child.tf", [("resource", [exEntityC4])])] exCtx emptyRefState
      ⟨exCtx, emptyRefState⟩).1 rfl

end Checkov
